import Mathlib

/-!
# go-commons: the grep engine, PATH handling and argument helpers

A shallow embedding of `pkg/grep` (the Boyer-Moore `stringFinder`, the per-file
loop of `searchWorker`, `dirTraversal`, `Search`, `Grep`), of
`pkg/process.SetEnvPath` and of `pkg/config.AppendStringArgs`, followed by the
properties established about them.

Conventions of the embedding:

* a Go `[]byte` or `string` is a `List Byte`; a Go `int` is an `Int` (slice lengths
  are bounded by the address space, far below `2^63`, so none of the sums of
  lengths and table entries computed here can wrap);
* a file is the list of its bytes, and what the `bufio.Scanner` of `searchWorker`
  delivers of it is `scannerTokens`;
* a Go run-time panic (index or slice bounds out of range) is the result `none`;
* a Go loop whose trip count is not syntactically bounded takes a fuel argument
  and yields `none` when the fuel runs out.
-/

namespace GoCommons

/-- A Go `byte`. -/
abbrev Byte := Fin 256

/-! ## Go slice primitives -/

/-- Index expression `xs[i]`: panics when `i` is out of range. -/
def index {α : Type} (xs : List α) (i : Int) : Option α :=
  if 0 ≤ i then xs[i.toNat]? else none

/-- Slice expression `xs[lo:]`: panics unless `0 ≤ lo ≤ len(xs)`. -/
def sliceFrom {α : Type} (xs : List α) (lo : Int) : Option (List α) :=
  if 0 ≤ lo ∧ lo ≤ xs.length then some (xs.drop lo.toNat) else none

/-- Slice expression `xs[lo:hi]`: panics unless `0 ≤ lo ≤ hi ≤ len(xs)`. -/
def slice {α : Type} (xs : List α) (lo hi : Int) : Option (List α) :=
  if 0 ≤ lo ∧ lo ≤ hi ∧ hi ≤ xs.length then some ((xs.take hi.toNat).drop lo.toNat) else none

/-- Assignment `xs[i] = v`: panics when `i` is out of range. -/
def store {α : Type} (xs : List α) (i : Int) (v : α) : Option (List α) :=
  if 0 ≤ i ∧ i < xs.length then some (xs.set i.toNat v) else none

/-- Library function `bytes.HasPrefix(s, prefix)`:
`len(s) >= len(prefix) && Equal(s[:len(prefix)], prefix)`. -/
def HasPrefix (s pre : List Byte) : Bool :=
  decide (pre.length ≤ s.length) && (s.take pre.length == pre)

/-! ## `pkg/grep/search.go`: the string finder -/

/-- The Go `max` of `search.go`. -/
def max (a b : Int) : Int := if a > b then a else b

/-- The struct `stringFinder`: `badCharSkip` is a `[256]int`, indexed by a byte. -/
structure stringFinder where
  pattern : List Byte
  badCharSkip : Byte → Int
  goodSuffixSkip : List Int

/-- The loop of `longestCommonSuffix`, entered with the counter at `i`. -/
def longestCommonSuffixLoop (a b : List Byte) : Nat → Int → Option Int
  | 0, _ => none
  | fuel + 1, i =>
    if i < a.length ∧ i < b.length then
      match index a (a.length - 1 - i), index b (b.length - 1 - i) with
      | some x, some y =>
        if x ≠ y then some i else longestCommonSuffixLoop a b fuel (i + 1)
      | _, _ => none
    else some i

/-- The function `longestCommonSuffix(a, b)`; the loop runs at most `len(a)` times. -/
def longestCommonSuffix (a b : List Byte) : Option Int :=
  longestCommonSuffixLoop a b (a.length + 1) 0

/-- Body of `for i := 0; i < last; i++ { f.badCharSkip[pattern[i]] = last - i }`. -/
def badCharStep (pattern : List Byte) (last : Int) (bad : Byte → Int) (i : Nat) :
    Option (Byte → Int) :=
  match index pattern i with
  | some b => some (Function.update bad b (last - i))
  | none => none

/-- Body of the first pass over the good suffix table; the state is
`(lastPrefix, goodSuffixSkip)`. -/
def goodSuffixFirstStep (pattern : List Byte) (last : Int) (st : Int × List Int) (i : Nat) :
    Option (Int × List Int) :=
  match sliceFrom pattern ((i : Int) + 1) with
  | some suf =>
    let lastPrefix := if HasPrefix pattern suf then (i : Int) + 1 else st.1
    match store st.2 i (lastPrefix + last - i) with
    | some good => some (lastPrefix, good)
    | none => none
  | none => none

/-- Body of the second pass over the good suffix table. -/
def goodSuffixSecondStep (pattern : List Byte) (last : Int) (good : List Int) (i : Nat) :
    Option (List Int) :=
  match slice pattern 1 ((i : Int) + 1) with
  | some b =>
    match longestCommonSuffix pattern b with
    | some lenSuffix =>
      match index pattern (i - lenSuffix), index pattern (last - lenSuffix) with
      | some x, some y =>
        if x ≠ y then store good (last - lenSuffix) (lenSuffix + last - i) else some good
      | _, _ => none
    | none => none
  | none => none

/-- The bad character table: every entry starts at `len(pattern)`, then the loop over
`0 ≤ i < last`. -/
def makeBadCharSkip (pattern : List Byte) : Option (Byte → Int) :=
  (List.range ((pattern.length : Int) - 1).toNat).foldlM
    (badCharStep pattern ((pattern.length : Int) - 1)) (fun _ => (pattern.length : Int))

/-- The first pass `for i := last; i >= 0; i--`, started with `lastPrefix = last` on
`make([]int, len(pattern))`. -/
def makeGoodSuffixFirst (pattern : List Byte) : Option (Int × List Int) :=
  (List.range pattern.length).reverse.foldlM
    (goodSuffixFirstStep pattern ((pattern.length : Int) - 1))
    ((pattern.length : Int) - 1, List.replicate pattern.length 0)

/-- The second pass `for i := 0; i < last; i++`. -/
def makeGoodSuffixSecond (pattern : List Byte) (good : List Int) : Option (List Int) :=
  (List.range ((pattern.length : Int) - 1).toNat).foldlM
    (goodSuffixSecondStep pattern ((pattern.length : Int) - 1)) good

/-- The constructor `MakeStringFinder(pattern)`. -/
def MakeStringFinder (pattern : List Byte) : Option stringFinder :=
  match makeBadCharSkip pattern with
  | some bad =>
    match makeGoodSuffixFirst pattern with
    | some st =>
      match makeGoodSuffixSecond pattern st.2 with
      | some good => some ⟨pattern, bad, good⟩
      | none => none
    | none => none
  | none => none

/-- The inner loop of `next`: `for j >= 0 && text[i] == f.pattern[j] { i--; j-- }`,
yielding the final `(i, j)`. -/
def nextInner (f : stringFinder) (text : List Byte) : Nat → Int → Int → Option (Int × Int)
  | 0, _, _ => none
  | fuel + 1, i, j =>
    if j ≥ 0 then
      match index text i, index f.pattern j with
      | some t, some p => if t = p then nextInner f text fuel (i - 1) (j - 1) else some (i, j)
      | _, _ => none
    else some (i, j)

/-- The outer loop of `next`, entered with the cursor at `i`. -/
def nextLoop (f : stringFinder) (text : List Byte) : Nat → Int → Option Int
  | 0, _ => none
  | fuel + 1, i =>
    if i < text.length then
      match nextInner f text (f.pattern.length + 1) i ((f.pattern.length : Int) - 1) with
      | some (i1, j) =>
        if j < 0 then some (i1 + 1)
        else
          match index text i1, index f.goodSuffixSkip j with
          | some b, some g => nextLoop f text fuel (i1 + max (f.badCharSkip b) g)
          | _, _ => none
      | none => none
    else some (-1)

/-- The method `(f *stringFinder) next(text)`. Every pass of the outer loop of a finder
built by `MakeStringFinder` moves the window forward, so `len(text) + 1` passes are
enough. -/
def next (f : stringFinder) (text : List Byte) : Option Int :=
  nextLoop f text (text.length + 1) ((f.pattern.length : Int) - 1)

/-- The scan of the naive search: `c` offsets are left to try, the next one is `k`. -/
def naiveSearchFrom (P T : List Byte) : Nat → Nat → Int
  | 0, _ => -1
  | c + 1, k => if (T.drop k).take P.length = P then (k : Int) else naiveSearchFrom P T c (k + 1)

/-- Naive substring search, as the specification words it: every offset `k` with
`0 ≤ k ≤ len(T) - len(P)` is tried in increasing order, the first one with
`T[k:k+len(P)] = P` is the answer, and the answer is `-1` when there is none. -/
def naiveSearch (P T : List Byte) : Int :=
  naiveSearchFrom P T (T.length + 1 - P.length) 0

/-! ## The tables built by `MakeStringFinder` -/

/-- What the search needs of the bad character table. -/
def BadCharOk (P : List Byte) (bad : Byte → Int) : Prop :=
  (∀ b, bad b ≤ (P.length : Int)) ∧
  (∀ (r : Nat) (b : Byte), r + 1 < P.length → P[r]? = some b →
    bad b ≤ (P.length : Int) - 1 - (r : Int))

/-- The suffix `pattern[d:]` is a prefix of the pattern. -/
def PrefixAt (P : List Byte) (d : Nat) : Prop := P.drop d <+: P

/-- The state of the first pass once the indices `k ≤ i < len(P)` are done. -/
def FirstInv (P : List Byte) (k : Nat) (st : Int × List Int) : Prop :=
  st.2.length = P.length ∧
  (k < P.length → (k : Int) + 1 ≤ st.1 ∧ ∀ d : Nat, k < d → PrefixAt P d → st.1 ≤ (d : Int)) ∧
  (k = P.length → st.1 = (P.length : Int) - 1) ∧
  (∀ j : Nat, k ≤ j → j < P.length → ∃ g, st.2[j]? = some g ∧ (P.length : Int) - j ≤ g ∧
    ∀ d : Nat, j < d → PrefixAt P d → g ≤ (d : Int) + ((P.length : Int) - 1) - j)

/-- The good suffix table after the first pass. -/
def FirstOk (P : List Byte) (good : List Int) : Prop :=
  good.length = P.length ∧
  ∀ j : Nat, j < P.length → ∃ g, good[j]? = some g ∧ (P.length : Int) - j ≤ g ∧
    ∀ d : Nat, j < d → PrefixAt P d → g ≤ (d : Int) + ((P.length : Int) - 1) - j

/-- The suffix `P[j+1:]` occurs again `d` places to the left, after a byte that differs
from `P[j]`. -/
def Recur (P : List Byte) (j d : Nat) : Prop :=
  (∀ t : Nat, j < t → t < P.length → P[t - d]? = P[t]?) ∧ P[j - d]? ≠ P[j]?

/-- The good suffix table once the second pass has done the indices `i < k`. -/
def SecondInv (P : List Byte) (k : Nat) (good : List Int) : Prop :=
  good.length = P.length ∧
  ∀ j : Nat, j < P.length → ∃ g, good[j]? = some g ∧ (P.length : Int) - j ≤ g ∧
    (∀ d : Nat, j < d → PrefixAt P d → g ≤ (d : Int) + ((P.length : Int) - 1) - j) ∧
    (∀ d : Nat, 1 ≤ d → d ≤ j → P.length - 1 < k + d → Recur P j d →
      g ≤ (d : Int) + ((P.length : Int) - 1) - j)

/-- A shift of the window by `d` is not ruled out by what a mismatch at `j` has shown:
the bytes already matched agree with the pattern moved by `d`, and the byte that
comes under the mismatching one is a different one. -/
def Feasible (P : List Byte) (j d : Nat) : Prop :=
  (∀ t : Nat, j < t → t < P.length → d ≤ t → P[t - d]? = P[t]?) ∧
  (d ≤ j → P[j - d]? ≠ P[j]?)

/-- What the search needs of the good suffix table. -/
def GoodSuffixOk (P : List Byte) (good : List Int) : Prop :=
  good.length = P.length ∧
  ∀ j : Nat, j < P.length → ∃ g, good[j]? = some g ∧ (P.length : Int) - j ≤ g ∧
    ∀ d : Nat, 1 ≤ d → Feasible P j d → g ≤ (d : Int) + ((P.length : Int) - 1) - j

/-- A finder whose tables allow `next` to skip safely. -/
def FinderOk (P : List Byte) (f : stringFinder) : Prop :=
  f.pattern = P ∧ BadCharOk P f.badCharSkip ∧ GoodSuffixOk P f.goodSuffixSkip

/-! ## The search loop -/

/-- The pattern occurs in the text at offset `k`. -/
def MatchAt (P T : List Byte) (k : Nat) : Prop :=
  k + P.length ≤ T.length ∧ ∀ t, t < P.length → T[k + t]? = P[t]?

/-- The number `r` is the answer of a search for the first occurrence of `P` in `T`. -/
def IsFirstMatch (P T : List Byte) (r : Int) : Prop :=
  (r = -1 ∧ ∀ k, ¬ MatchAt P T k) ∨
  (∃ k : Nat, r = (k : Int) ∧ MatchAt P T k ∧ ∀ k1, k1 < k → ¬ MatchAt P T k1)

/-! ## `pkg/grep/search.go`: the per-file loop of `searchWorker` -/

/-- The constant `LITERAL = iota`. -/
def LITERAL : Int := 0

/-- The constant `REGEX`. -/
def REGEX : Int := 1

/-- The struct `SearchOptions`. The compiled regular expression is a value of a type `ρ`
of the standard library; a nil pointer is `none`. -/
structure SearchOptions (ρ : Type) where
  Kind : Int
  Lines : Bool
  Regex : Option ρ
  Finder : Option stringFinder

/-- One call of `fmt.Printf` in `searchWorker`, with its arguments:
`"Binary file %s matches\n"`, `"%s:%d %s\n"` and `"%s %s\n"`. -/
inductive Output where
  | binary (path : String)
  | numbered (path : String) (line : Int) (text : List Byte)
  | plain (path : String) (text : List Byte)
  deriving DecidableEq

/-- The line text an output carries, if it carries one. -/
def Output.text? : Output → Option (List Byte)
  | .binary _ => none
  | .numbered _ _ text => some text
  | .plain _ text => some text

/-- The line number an output carries, if it carries one. -/
def Output.line? : Output → Option Int
  | .numbered _ line _ => some line
  | _ => none

/-- Library function `bytes.IndexByte(b, c)`: the index of the first `c` in `b`, or `-1`. -/
def IndexByte (b : List Byte) (c : Byte) : Int :=
  if c ∈ b then (b.indexOf c : Int) else -1

/-- What the loop body does with a line on which the matcher has found a match: the
output it prints, and whether it leaves the loop (`break`). -/
def report (path : String) (Lines isBinary : Bool) (line : Int) (text : List Byte) :
    Output × Bool :=
  if isBinary then (Output.binary path, true)
  else if Lines then (Output.numbered path line text, false)
  else (Output.plain path text, false)

/-- The rest of the loop after a line has been handled: `hit` tells whether the matcher
found a match on it, `rest` is the run of the loop over the lines that follow. The
result is the list of outputs and the number of lines the scanner has delivered. -/
def afterLine (path : String) (Lines isBinary : Bool) (line : Int) (text : List Byte)
    (hit : Bool) (rest : Option (List Output × Nat)) : Option (List Output × Nat) :=
  if hit then
    if (report path Lines isBinary line text).2 then
      some ([(report path Lines isBinary line text).1], 1)
    else
      match rest with
      | some r => some ((report path Lines isBinary line text).1 :: r.1, r.2 + 1)
      | none => none
  else
    match rest with
    | some r => some (r.1, r.2 + 1)
    | none => none

/-- Library constant `bufio.MaxScanTokenSize`: the size up to which the buffer of a
`bufio.Scanner` made by `bufio.NewScanner` grows. -/
def MaxScanTokenSize : Nat := 64 * 1024

/-- Library function `dropCR` of `bufio.ScanLines`: a final `\r` is dropped. -/
def dropCR (data : List Byte) : List Byte :=
  if data.getLast? = some 13 then data.dropLast else data

/-- The split of the bytes of a file at every `\n`, `cur` being the line under way; what
follows the last `\n` is a line when it is not empty. -/
def splitLines : List Byte → List Byte → List (List Byte)
  | cur, [] => if cur.isEmpty then [] else [cur]
  | cur, c :: rest =>
    if c = 10 then cur :: splitLines [] rest else splitLines (cur ++ [c]) rest

/-- The raw lines of a file: the bytes between its `\n`. -/
def rawLines (content : List Byte) : List (List Byte) := splitLines [] content

/-- The lines of a file, without their terminator (`\n` or `\r\n`). -/
def fileLines (content : List Byte) : List (List Byte) := (rawLines content).map dropCR

/-- The tokens that the successive calls of `scanner.Scan()` deliver, for the scanner
`bufio.NewScanner(f)` of `searchWorker` (split function `ScanLines`, default buffer) on a
file that is read without an I/O error: the lines of the file up to the first raw line
that does not fit, with its `\n`, into a buffer of `MaxScanTokenSize` bytes. At such a
line `Scan` returns false with `ErrTooLong`, which `searchWorker` never looks at
(`scanner.Err()` is not called), so the loop just ends. -/
def scannerTokens (content : List Byte) : List (List Byte) :=
  ((rawLines content).takeWhile (fun l => decide (l.length < MaxScanTokenSize))).map dropCR

/-- The loop `for scanner.Scan() { ... }` of `searchWorker` over the tokens that the
scanner delivers (see `scannerTokens`), entered with the counter `line` and the flag
`isBinary`. `find` is `(*regexp.Regexp).Find`, whose nil result is `none`. A nil `Finder`
or `Regex` that is dereferenced panics. -/
def fileLoop {ρ : Type} (find : ρ → List Byte → Option (List Byte)) (path : String)
    (opts : SearchOptions ρ) : List (List Byte) → Int → Bool → Option (List Output × Nat)
  | [], _, _ => some ([], 0)
  | text :: rest, line, isBinary =>
    let isBinary1 := if line = 1 then decide (IndexByte text 0 ≠ -1) else isBinary
    if opts.Kind = LITERAL then
      match opts.Finder with
      | some f =>
        match next f text with
        | some r =>
          afterLine path opts.Lines isBinary1 line text (decide (r ≠ -1))
            (fileLoop find path opts rest (line + 1) isBinary1)
        | none => none
      | none => none
    else if opts.Kind = REGEX then
      match opts.Regex with
      | some re =>
        afterLine path opts.Lines isBinary1 line text (find re text).isSome
          (fileLoop find path opts rest (line + 1) isBinary1)
      | none => none
    else
      match fileLoop find path opts rest (line + 1) isBinary1 with
      | some r => some (r.1, r.2 + 1)
      | none => none

/-- The per-file part of `searchWorker` on a file with the bytes `content`:
`scanner := bufio.NewScanner(f)`, `isBinary := false`, `line := 1`, then the loop over
what the scanner delivers. -/
def scanFile {ρ : Type} (find : ρ → List Byte → Option (List Byte)) (path : String)
    (opts : SearchOptions ρ) (content : List Byte) : Option (List Output × Nat) :=
  fileLoop find path opts (scannerTokens content) 1 false

/-- The matcher of `opts` finds a match on the line `text`: `Finder.next(text) != -1` for
`LITERAL`, `Regex.Find(text) != nil` for `REGEX`. -/
def matcherFinds {ρ : Type} (find : ρ → List Byte → Option (List Byte))
    (opts : SearchOptions ρ) (text : List Byte) : Bool :=
  if opts.Kind = LITERAL then
    match opts.Finder with
    | some f =>
      match next f text with
      | some r => decide (r ≠ -1)
      | none => false
    | none => false
  else if opts.Kind = REGEX then
    match opts.Regex with
    | some re => (find re text).isSome
    | none => false
  else false

/-- The options are those of one of the two matcher kinds, as `Grep` builds them: a
`LITERAL` search with a finder made by `MakeStringFinder`, or a `REGEX` search with a
compiled expression. -/
def OptionsOk {ρ : Type} (opts : SearchOptions ρ) : Prop :=
  (opts.Kind = LITERAL ∧ ∃ P f, MakeStringFinder P = some f ∧ opts.Finder = some f) ∨
  (opts.Kind = REGEX ∧ ∃ re, opts.Regex = some re)

/-- The outputs a text file is expected to give: one per matching line, in order, with
the 1-based number of the line when `Lines` is set. The first line of `lines` has the
number `start + 1`. -/
def expectedOutputs {ρ : Type} (find : ρ → List Byte → Option (List Byte)) (path : String)
    (opts : SearchOptions ρ) (start : Nat) (lines : List (List Byte)) : List Output :=
  ((lines.enumFrom start).filter (fun p => matcherFinds find opts p.2)).map
    (fun p => if opts.Lines then Output.numbered path ((p.1 : Int) + 1) p.2
      else Output.plain path p.2)

/-- The finder `MakeStringFinder([]byte("b"))`. -/
def exampleFinder : stringFinder := ⟨[98], fun _ => 1, [1]⟩

/-- The options of a literal search for `"b"`; no regular expression is involved, so the
type of compiled expressions is `Unit`. -/
def exampleOptions (Lines : Bool) : SearchOptions Unit :=
  ⟨LITERAL, Lines, none, some exampleFinder⟩

/-- A `Find` for the options without a regular expression. -/
def exampleFind : Unit → List Byte → Option (List Byte) := fun _ _ => none

/-- A text file of three lines: `"a\nxb yb\nb\n"`. -/
def exampleTextFile : List Byte := [97, 10, 120, 98, 32, 121, 98, 10, 98, 10]

/-- A file of three lines whose first line holds a NUL byte: `"a\x00\nxb yb\nb\n"`. -/
def exampleBinaryFile : List Byte := [97, 0, 10, 120, 98, 32, 121, 98, 10, 98, 10]

/-- A line of 70000 bytes `c`, more than a default scanner takes. -/
@[irreducible] def longLine (c : Byte) : List Byte := List.replicate 70000 c

/-- A text file of three lines: `a`, then 70000 times `b`, then `b`. -/
def exampleLongFile : List Byte := [97] ++ 10 :: (longLine 98 ++ 10 :: [98, 10])

/-- A file of three lines whose first line holds a NUL byte: `a\x00`, then 70000 times
`x`, then `b`. -/
def exampleLongBinaryFile : List Byte := [97, 0] ++ 10 :: (longLine 120 ++ 10 :: [98, 10])

/-! ## `pkg/grep/search.go`: `dirTraversal` and `Search` -/

/-- The constant `MAX_WORKERS`, the capacity of the channel `sema`. -/
def MAX_WORKERS : Nat := 128

/-- The struct `SearchDebug`. -/
structure SearchDebug where
  Workers : Int

/-- What the file system holds at a path, as `dirTraversal` sees it: a path `os.Lstat`
fails on, a file (with its bytes), a directory `os.Open` fails
on, a directory whose `Readdirnames` fails, or a directory with its named entries. -/
inductive Node where
  | missing
  | file (content : List Byte)
  | dirNoOpen
  | dirNoRead
  | dir (entries : List (String × Node))

/-- The errors `dirTraversal` returns, by the path they are about. -/
inductive TraversalError where
  | lstat (path : String)
  | open (path : String)
  | readdir (path : String)
  deriving DecidableEq

/-- What is observed of a traversal: a token put into `sema` (with the number of tokens
in the channel after it), a token taken out (with the number left), a `SearchJob` sent on
`searchJobs`. -/
inductive Event where
  | acquire (path : String) (level : Nat)
  | release (path : String) (level : Nat)
  | job (path : String)
  deriving DecidableEq

/-- The state a traversal runs in: the number of tokens in `sema`, for every coming
`select` whether the case `<-done` is the one taken (none left: it is not), and the
events so far. The jobs sent are taken to be received by a `searchWorker`. -/
structure Walk where
  held : Nat
  selects : List Bool
  events : List Event

/-- How a call ends: it returns nil (also the bare `return` after `<-done`), it returns
an error, or it waits for a token for ever. -/
inductive Outcome where
  | ok
  | failed (e : TraversalError)
  | blocked
  deriving DecidableEq

/-- The state after `sema <- struct{}{}` has gone through. -/
def Walk.acquire (w : Walk) (path : String) : Walk :=
  ⟨w.held + 1, w.selects.tail, w.events ++ [Event.acquire path (w.held + 1)]⟩

/-- The state after the deferred `<-sema`. -/
def Walk.release (w : Walk) (path : String) : Walk :=
  ⟨w.held - 1, w.selects, w.events ++ [Event.release path (w.held - 1)]⟩

/-- The state after `searchJobs <- &SearchJob{...}`. -/
def Walk.send (w : Walk) (path : String) : Walk :=
  ⟨w.held, w.selects, w.events ++ [Event.job path]⟩

/-- The state after a `select` that took `<-done`, or that waits for ever. -/
def Walk.skip (w : Walk) : Walk :=
  ⟨w.held, w.selects.tail, w.events⟩

/-- The deferred function of `dirTraversal`, run when the call returns. -/
def released (path : String) (r : Outcome × Walk) : Outcome × Walk :=
  match r with
  | (Outcome.blocked, w) => (Outcome.blocked, w)
  | (o, w) => (o, w.release path)

mutual
/-- The function `dirTraversal(path, ...)`, `node` being what the file system holds at
`path`; `join` is `filepath.Join`. The recursive calls are plain calls, as in the
source, so a call keeps its token while its entries are visited. -/
def dirTraversal (join : String → String → String) (path : String) :
    Node → Walk → Outcome × Walk
  | node, w =>
    if w.selects.headD false then (Outcome.ok, w.skip)
    else if w.held < MAX_WORKERS then
      released path
        (match node with
        | Node.missing => (Outcome.failed (TraversalError.lstat path), w.acquire path)
        | Node.file _ => (Outcome.ok, (w.acquire path).send path)
        | Node.dirNoOpen => (Outcome.failed (TraversalError.open path), w.acquire path)
        | Node.dirNoRead => (Outcome.failed (TraversalError.readdir path), w.acquire path)
        | Node.dir entries => dirEntries join path entries (w.acquire path))
    else (Outcome.blocked, w.skip)
/-- The loop `for _, deeperPath := range dirNames` of `dirTraversal`. -/
def dirEntries (join : String → String → String) (path : String) :
    List (String × Node) → Walk → Outcome × Walk
  | [], w => (Outcome.ok, w)
  | (name, child) :: rest, w =>
    match dirTraversal join (join path name) child w with
    | (Outcome.ok, w1) => dirEntries join path rest w1
    | (Outcome.failed e, w1) => (Outcome.failed e, w1)
    | (Outcome.blocked, w1) => (Outcome.blocked, w1)
end

/-- The loop `for _, path := range paths { dirTraversal(path, ...) }` of `Search`, which
drops what `dirTraversal` returns; `fs` tells what the file system holds at a root path. -/
def searchRoots (join : String → String → String) (fs : String → Node) :
    List String → Walk → Outcome × Walk
  | [], w => (Outcome.ok, w)
  | path :: rest, w =>
    match dirTraversal join path (fs path) w with
    | (Outcome.blocked, w1) => (Outcome.blocked, w1)
    | (_, w1) => searchRoots join fs rest w1

/-- The function `Search(paths, opts, debug)`, as far as it walks the paths: neither
`opts` nor `debug` has a part in the walk. -/
def Search {ρ : Type} (join : String → String → String) (fs : String → Node)
    (paths : List String) (_opts : SearchOptions ρ) (_debug : SearchDebug) (w : Walk) :
    Outcome × Walk :=
  searchRoots join fs paths w

/-! ## `pkg/grep/grep.go` -/

/-- How a call of `Grep` ends: it returns a list and an error (nil: `none`), it never
returns because `Search` does not, or it panics. -/
inductive GrepOutcome (ε : Type) where
  | returned (list : List String) (err : Option ε)
  | blocked
  | panicked

/-- The function `Grep(paths, query, isRegex, showLines, workers)`; `compile` is
`regexp.Compile`. -/
def Grep {ρ ε : Type} (compile : List Byte → Except ε ρ) (join : String → String → String)
    (fs : String → Node) (paths : List String) (query : List Byte)
    (isRegex showLines : Bool) (workers : Int) (w : Walk) : GrepOutcome ε × Walk :=
  if isRegex then
    match compile query with
    | Except.error err => (GrepOutcome.returned [] (some err), w)
    | Except.ok r =>
      match Search join fs paths (⟨REGEX, showLines, some r, none⟩ : SearchOptions ρ)
        ⟨workers⟩ w with
      | (Outcome.blocked, w1) => (GrepOutcome.blocked, w1)
      | (_, w1) => (GrepOutcome.returned [] none, w1)
  else
    match MakeStringFinder query with
    | some f =>
      match Search join fs paths (⟨LITERAL, showLines, none, some f⟩ : SearchOptions ρ)
        ⟨workers⟩ w with
      | (Outcome.blocked, w1) => (GrepOutcome.blocked, w1)
      | (_, w1) => (GrepOutcome.returned [] none, w1)
    | none => (GrepOutcome.panicked, w)

/-- A `filepath.Join` for the examples: the two parts with a slash between them. -/
def exampleJoin (path name : String) : String := path ++ "/" ++ name

/-- A `regexp.Compile` for the examples, which are literal searches: it is never called. -/
def exampleCompile : List Byte → Except Unit Unit := fun _ => Except.ok ()

/-- The state a search starts in: no token in `sema`, `done` never closed, nothing
observed yet. -/
def exampleStart : Walk := ⟨0, [], []⟩

/-- A file system with the file `c` of the package's tests, whose one line is `"c"`. -/
def exampleFs : String → Node := fun p =>
  if p = "c" then Node.file [99, 10] else Node.missing

/-- The channel `sema` has never held more than `MAX_WORKERS` tokens: it holds no more
now, and no token was put in beyond that level. -/
def TokensBounded (w : Walk) : Prop :=
  w.held ≤ MAX_WORKERS ∧ ∀ p l, Event.acquire p l ∈ w.events → l ≤ MAX_WORKERS

/-- A file system for the examples: the directory `r` holds the file `c`, the directory
`q` holds an entry `a` that cannot be inspected and then a file `b`, the directory `p`
holds the files `a` and `b`. -/
def exampleTreeFs : String → Node := fun path =>
  if path = "r" then Node.dir [("c", Node.file [99, 10])]
  else if path = "q" then Node.dir [("a", Node.missing), ("b", Node.file [98, 10])]
  else if path = "p" then Node.dir [("a", Node.file [97, 10]), ("b", Node.file [98, 10])]
  else Node.missing

/-! ## `pkg/process/process.go`: `SetEnvPath` -/

/-- Modelled from the spec: `stringutil.ConcatStrings`, whose source is not under `src/`,
taken to be the concatenation of its arguments in order. -/
def ConcatStrings (parts : List String) : String := String.join parts

/-- The environment of the process: the value of every variable, `""` when unset, as
`os.Getenv` reads it. -/
abbrev Environ := String → String

/-- Library function `os.Setenv(key, value)` for a well-formed key: it fails on a value
that holds a NUL byte and else sets the variable. -/
def Setenv (key value : String) (env : Environ) : Option String × Environ :=
  if value.toList.contains (Char.ofNat 0) then (some "setenv: invalid argument", env)
  else (none, fun k => if k = key then value else env k)

/-- The function `SetEnvPath(element, before)`, run in the environment `env` on the
operating system `goos` (`runtime.GOOS`): the error returned and the environment left. -/
def SetEnvPath (goos : String) (element : String) (before : Bool) (env : Environ) :
    Option String × Environ :=
  if element = "" then (none, env)
  else
    let path := env "PATH"
    let delim := if goos = "windows" then ";" else ":"
    let env1 := ConcatStrings [path, delim, element]
    let env2 := if before then ConcatStrings [element, delim, path] else env1
    match Setenv "PATH" env2 env with
    | (some err, e) => (some err, e)
    | (none, e) => (none, e)

/-- An environment in which `PATH` is `/usr/bin`. -/
def exampleEnviron : Environ := fun k => if k = "PATH" then "/usr/bin" else ""

/-! ## `pkg/config/config.go`: `AppendStringArgs` -/

/-- A `*cobra.Command`, as far as `PrefixKey` looks at it: the `Use` of the command and
of its ancestors, from the command up to its root; the nil pointer is the empty list. -/
abbrev Command := List String

/-- The loop of `PrefixKey`: `for cmd != nil && cmd != cmd.Root()`; a command is its own
root exactly when it has no parent. -/
def prefixLoop : Command → String → String
  | [], parentKey => parentKey
  | [_], parentKey => parentKey
  | u :: parent :: rest, parentKey =>
    prefixLoop (parent :: rest) (ConcatStrings [u, ".", parentKey])

/-- The function `PrefixKey(cmd, keyName)`; the slice expression
`parentKey[len(parentKey)-1:]` panics on an empty `parentKey`. -/
def PrefixKey (cmd : Command) (keyName : String) : Option String :=
  let parentKey := prefixLoop cmd ""
  if keyName = "" then
    if parentKey.length = 0 then none
    else if parentKey.toList.getLast? = some '.' then
      some (String.mk parentKey.toList.dropLast)
    else some (parentKey ++ keyName)
  else some (parentKey ++ keyName)

/-- The function `ViperGetString(cmd, key)`; `getString` is `viper.GetViper().GetString`. -/
def ViperGetString (getString : String → String) (cmd : Command) (key : String) :
    Option String :=
  match PrefixKey cmd key with
  | some k => some (getString k)
  | none => none

/-- What `fmt.Sprintf` appends for the operands left over by the format:
`%!(EXTRA string=a, string=b)`. -/
def sprintfExtra (args : List String) : String :=
  if args.isEmpty then ""
  else "%!(EXTRA " ++ ", ".intercalate (args.map (fun a => "string=" ++ a)) ++ ")"

/-- The scan of the format by `fmt.Sprintf`, for string operands and the verbs `%s`,
`%v` and `%%`; a format with any other verb, flag or width is outside the model. -/
def sprintfLoop : List Char → List String → Option String
  | [], args => some (sprintfExtra args)
  | '%' :: '%' :: rest, args => (sprintfLoop rest args).map (fun s => "%" ++ s)
  | '%' :: 's' :: rest, a :: args => (sprintfLoop rest args).map (fun s => a ++ s)
  | '%' :: 'v' :: rest, a :: args => (sprintfLoop rest args).map (fun s => a ++ s)
  | '%' :: 's' :: rest, [] => (sprintfLoop rest []).map (fun s => "%!s(MISSING)" ++ s)
  | '%' :: 'v' :: rest, [] => (sprintfLoop rest []).map (fun s => "%!v(MISSING)" ++ s)
  | '%' :: _, _ => none
  | c :: rest, args => (sprintfLoop rest args).map (fun s => String.singleton c ++ s)

/-- Library function `fmt.Sprintf(format, a...)` on string operands. -/
def Sprintf (format : String) (args : List String) : Option String :=
  sprintfLoop format.toList args

/-- The function `AppendStringArgsf(cmd, args, key, format)`; `none` is a panic of
`PrefixKey` or a format outside the model of `Sprintf`. -/
def AppendStringArgsf (getString : String → String) (cmd : Command)
    (args : List String) (key : String) (format : String) : Option (List String) :=
  match ViperGetString getString cmd key with
  | some val =>
    if val ≠ "" then
      match Sprintf format [key, val] with
      | some s => some (args ++ [s])
      | none => none
    else some args
  | none => none

/-- The function `AppendStringArgs(cmd, args, key)`. -/
def AppendStringArgs (getString : String → String) (cmd : Command)
    (args : List String) (key : String) : Option (List String) :=
  AppendStringArgsf getString cmd args key ""

/-- A viper store in which the key `name` has the value `v`. -/
def exampleViper : String → String := fun k => if k = "name" then "v" else ""

/-! ## Generic facts about counted loops and slices -/

theorem foldlM_range_inv {σ : Type} (step : σ → Nat → Option σ) (Inv : Nat → σ → Prop)
    (N : Nat) (s0 : σ) (h0 : Inv 0 s0)
    (hstep : ∀ k s, k < N → Inv k s → ∃ s1, step s k = some s1 ∧ Inv (k + 1) s1) :
    ∃ s, (List.range N).foldlM step s0 = some s ∧ Inv N s := by
  induction N with
  | zero => exact ⟨s0, by simp, h0⟩
  | succ N ih =>
    obtain ⟨s, hs, hI⟩ := ih (fun k s hk hI => hstep k s (Nat.lt_succ_of_lt hk) hI)
    obtain ⟨s1, hs1, hI1⟩ := hstep N s (Nat.lt_succ_self N) hI
    refine ⟨s1, ?_, hI1⟩
    rw [List.range_succ, List.foldlM_append, hs]
    simp [hs1]

theorem foldlM_range_reverse_inv {σ : Type} (step : σ → Nat → Option σ) (Inv : Nat → σ → Prop)
    (N : Nat) (s0 : σ) (h0 : Inv N s0)
    (hstep : ∀ k s, k < N → Inv (k + 1) s → ∃ s1, step s k = some s1 ∧ Inv k s1) :
    ∃ s, (List.range N).reverse.foldlM step s0 = some s ∧ Inv 0 s := by
  induction N generalizing s0 with
  | zero => exact ⟨s0, by simp, h0⟩
  | succ N ih =>
    obtain ⟨s1, hs1, hI1⟩ := hstep N s0 (Nat.lt_succ_self N) h0
    obtain ⟨s, hs, hI⟩ := ih s1 hI1 (fun k s hk hI => hstep k s (Nat.lt_succ_of_lt hk) hI)
    refine ⟨s, ?_, hI⟩
    rw [List.range_succ, List.reverse_append]
    show List.foldlM step s0 (N :: (List.range N).reverse) = some s
    rw [List.foldlM_cons, hs1]
    exact hs

theorem index_natCast {α : Type} (xs : List α) (i : Nat) : index xs (i : Int) = xs[i]? := by
  simp [index]

theorem index_eq_of_toNat {α : Type} (xs : List α) (i : Int) (k : Nat) (h : i = (k : Int)) :
    index xs i = xs[k]? := by
  subst h; exact index_natCast xs k

theorem HasPrefix_iff (s pre : List Byte) : HasPrefix s pre = true ↔ pre <+: s := by
  unfold HasPrefix
  rw [List.prefix_iff_eq_take]
  constructor
  · intro h
    simp only [Bool.and_eq_true, decide_eq_true_eq, beq_iff_eq] at h
    exact h.2.symm
  · intro h
    simp only [Bool.and_eq_true, decide_eq_true_eq, beq_iff_eq]
    refine ⟨?_, h.symm⟩
    have := congrArg List.length h
    simp at this
    omega

/-! ## The tables built by `MakeStringFinder`: properties -/

theorem longestCommonSuffixLoop_spec (a b : List Byte) (fuel i : Nat)
    (hfuel : a.length + 1 ≤ fuel + i) (hi : i ≤ a.length) (hib : i ≤ b.length)
    (hmatch : ∀ t, t < i → a[a.length - 1 - t]? = b[b.length - 1 - t]?) :
    ∃ L : Nat, longestCommonSuffixLoop a b fuel (i : Int) = some (L : Int) ∧
      L ≤ a.length ∧ L ≤ b.length ∧
      (∀ t, t < L → a[a.length - 1 - t]? = b[b.length - 1 - t]?) ∧
      (L < a.length → L < b.length → a[a.length - 1 - L]? ≠ b[b.length - 1 - L]?) := by
  induction fuel generalizing i with
  | zero => omega
  | succ fuel ih =>
    unfold longestCommonSuffixLoop
    by_cases hc : i < a.length ∧ i < b.length
    · have hc1 : ((i : Int) < (a.length : Int) ∧ (i : Int) < (b.length : Int)) := by omega
      have ha : a.length - 1 - i < a.length := by omega
      have hb : b.length - 1 - i < b.length := by omega
      rw [if_pos hc1, index_eq_of_toNat a _ (a.length - 1 - i) (by omega),
        index_eq_of_toNat b _ (b.length - 1 - i) (by omega),
        List.getElem?_eq_getElem ha, List.getElem?_eq_getElem hb]
      by_cases hxy : a[a.length - 1 - i] = b[b.length - 1 - i]
      · have hstep : ∀ t, t < i + 1 → a[a.length - 1 - t]? = b[b.length - 1 - t]? := by
          intro t ht
          by_cases hti : t = i
          · subst hti
            rw [List.getElem?_eq_getElem ha, List.getElem?_eq_getElem hb, hxy]
          · exact hmatch t (by omega)
        obtain ⟨L, hL, h1, h2, h3, h4⟩ := ih (i + 1) (by omega) (by omega) (by omega) hstep
        refine ⟨L, ?_, h1, h2, h3, h4⟩
        simp only [ne_eq, hxy, not_true_eq_false, if_false]
        rw [← hL]; push_cast; rfl
      · refine ⟨i, ?_, hi, hib, hmatch, ?_⟩
        · simp only [ne_eq, hxy, not_false_eq_true, if_true]
        · intro _ _
          rw [List.getElem?_eq_getElem ha, List.getElem?_eq_getElem hb]
          simpa using hxy
    · have hc1 : ¬ ((i : Int) < (a.length : Int) ∧ (i : Int) < (b.length : Int)) := by omega
      rw [if_neg hc1]
      exact ⟨i, rfl, hi, hib, hmatch, by omega⟩

theorem longestCommonSuffix_spec (a b : List Byte) :
    ∃ L : Nat, longestCommonSuffix a b = some (L : Int) ∧ L ≤ a.length ∧ L ≤ b.length ∧
      (∀ t, t < L → a[a.length - 1 - t]? = b[b.length - 1 - t]?) ∧
      (L < a.length → L < b.length → a[a.length - 1 - L]? ≠ b[b.length - 1 - L]?) := by
  have h := longestCommonSuffixLoop_spec a b (a.length + 1) 0 (by omega) (by omega) (by omega)
    (by intro t ht; omega)
  simpa [longestCommonSuffix] using h

theorem makeBadCharSkip_spec (P : List Byte) :
    ∃ bad, makeBadCharSkip P = some bad ∧ BadCharOk P bad := by
  unfold makeBadCharSkip
  have h := foldlM_range_inv (badCharStep P ((P.length : Int) - 1))
    (fun k bad => (∀ b, bad b ≤ (P.length : Int)) ∧
      (∀ (r : Nat) (b : Byte), r < k → P[r]? = some b →
        bad b ≤ (P.length : Int) - 1 - (r : Int)))
    ((P.length : Int) - 1).toNat (fun _ => (P.length : Int))
    ⟨fun _ => le_refl _, fun r b hr _ => by omega⟩
    (by
      intro k bad hk ⟨h1, h2⟩
      have hkP : k < P.length := by omega
      unfold badCharStep
      rw [index_natCast, List.getElem?_eq_getElem hkP]
      refine ⟨_, rfl, ?_, ?_⟩
      · intro b
        by_cases hb : b = P[k]
        · subst hb; rw [Function.update_same]; omega
        · rw [Function.update_noteq hb]; exact h1 b
      · intro r b hr hrb
        by_cases hb : b = P[k]
        · subst hb; rw [Function.update_same]; omega
        · rw [Function.update_noteq hb]
          have hrk : r ≠ k := by
            intro h; subst h
            rw [List.getElem?_eq_getElem hkP] at hrb
            exact hb (Option.some.inj hrb).symm
          exact h2 r b (by omega) hrb)
  obtain ⟨bad, hbad, h1, h2⟩ := h
  exact ⟨bad, hbad, h1, fun r b hr hrb => h2 r b (by omega) hrb⟩

theorem prefixAt_length (P : List Byte) (d : Nat) (h : P.length ≤ d) : PrefixAt P d := by
  unfold PrefixAt
  rw [List.drop_of_length_le h]
  exact List.nil_prefix

theorem goodSuffixFirstStep_spec (P : List Byte) (k : Nat) (st : Int × List Int)
    (hk : k < P.length) (hI : FirstInv P (k + 1) st) :
    ∃ st1, goodSuffixFirstStep P ((P.length : Int) - 1) st k = some st1 ∧ FirstInv P k st1 := by
  obtain ⟨hlen, hlp, hinit, hg⟩ := hI
  unfold goodSuffixFirstStep
  have hs : sliceFrom P ((k : Int) + 1) = some (P.drop (k + 1)) := by
    unfold sliceFrom
    rw [if_pos (by omega)]
    congr 2
  rw [hs]
  simp only []
  have hst : ∀ v : Int, store st.2 (k : Int) v = some (st.2.set k v) := by
    intro v
    unfold store
    rw [if_pos (by omega)]
    congr 2
  rw [hst]
  refine ⟨_, rfl, ?_⟩
  have hpre : HasPrefix P (P.drop (k + 1)) = true ↔ PrefixAt P (k + 1) := HasPrefix_iff _ _
  have hlo : (k : Int) + 1 ≤ (if HasPrefix P (P.drop (k + 1)) = true then (k : Int) + 1 else st.1) := by
    by_cases hp : HasPrefix P (P.drop (k + 1)) = true
    · rw [if_pos hp]
    · rw [if_neg hp]
      have hk1 : k + 1 < P.length := by
        by_contra hcon
        exact hp (hpre.2 (prefixAt_length P (k + 1) (by omega)))
      have := (hlp hk1).1
      push_cast at this
      omega
  have hup : ∀ d : Nat, k < d → PrefixAt P d →
      (if HasPrefix P (P.drop (k + 1)) = true then (k : Int) + 1 else st.1) ≤ (d : Int) := by
    intro d hd hpd
    by_cases hp : HasPrefix P (P.drop (k + 1)) = true
    · rw [if_pos hp]; omega
    · rw [if_neg hp]
      have hk1 : k + 1 < P.length := by
        by_contra hcon
        exact hp (hpre.2 (prefixAt_length P (k + 1) (by omega)))
      have hdk : d ≠ k + 1 := by
        intro h; subst h; exact hp (hpre.2 hpd)
      exact (hlp hk1).2 d (by omega) hpd
  refine ⟨by simpa using hlen, fun _ => ⟨hlo, hup⟩, fun h => by omega, ?_⟩
  intro j hkj hj
  by_cases hjk : j = k
  · subst hjk
    refine ⟨_, List.getElem?_set_self (show j < st.2.length by omega), ?_, ?_⟩
    · omega
    · intro d hd hpd
      have := hup d hd hpd
      omega
  · obtain ⟨g, hg1, hg2, hg3⟩ := hg j (by omega) hj
    refine ⟨g, ?_, hg2, hg3⟩
    simp only []
    rw [List.getElem?_set_ne (by omega)]
    exact hg1

theorem makeGoodSuffixFirst_spec (P : List Byte) :
    ∃ st, makeGoodSuffixFirst P = some st ∧ FirstOk P st.2 := by
  unfold makeGoodSuffixFirst
  obtain ⟨st, hst, hI⟩ := foldlM_range_reverse_inv
    (goodSuffixFirstStep P ((P.length : Int) - 1)) (FirstInv P) P.length
    ((P.length : Int) - 1, List.replicate P.length 0)
    ⟨by simp, fun h => by omega, fun _ => rfl, fun j h1 h2 => by omega⟩
    (fun k s hk hI => goodSuffixFirstStep_spec P k s hk hI)
  exact ⟨st, hst, hI.1, fun j hj => hI.2.2.2 j (Nat.zero_le j) hj⟩

theorem recur_lcs (P b : List Byte) (k L j : Nat) (hk : k + 1 < P.length)
    (hblen : b.length = k) (hbget : ∀ t, t < k → b[t]? = P[t + 1]?)
    (hLk : L ≤ k)
    (hm : ∀ t, t < L → P[P.length - 1 - t]? = b[b.length - 1 - t]?)
    (hmis : L < P.length → L < b.length → P[P.length - 1 - L]? ≠ b[b.length - 1 - L]?)
    (hj : j < P.length) (hdj : P.length - 1 - k ≤ j) (hr : Recur P j (P.length - 1 - k)) :
    L = P.length - 1 - j := by
  obtain ⟨hr1, hr2⟩ := hr
  rcases Nat.lt_trichotomy L (P.length - 1 - j) with h | h | h
  · exfalso
    have h1 := hmis (by omega) (by omega)
    rw [hblen, hbget (k - 1 - L) (by omega)] at h1
    have h2 := hr1 (P.length - 1 - L) (by omega) (by omega)
    have e : P.length - 1 - L - (P.length - 1 - k) = k - 1 - L + 1 := by omega
    rw [e] at h2
    exact h1 h2.symm
  · exact h
  · exfalso
    have h1 := hm (P.length - 1 - j) h
    rw [hblen, hbget _ (by omega)] at h1
    have e1 : P.length - 1 - (P.length - 1 - j) = j := by omega
    have e2 : k - 1 - (P.length - 1 - j) + 1 = j - (P.length - 1 - k) := by omega
    rw [e1, e2] at h1
    exact hr2 h1.symm

theorem goodSuffixSecondStep_spec (P : List Byte) (k : Nat) (good : List Int)
    (hk : k + 1 < P.length) (hI : SecondInv P k good) :
    ∃ good1, goodSuffixSecondStep P ((P.length : Int) - 1) good k = some good1 ∧
      SecondInv P (k + 1) good1 := by
  obtain ⟨hlen, hg⟩ := hI
  have hs : slice P 1 ((k : Int) + 1) = some ((P.take (k + 1)).drop 1) := by
    unfold slice
    rw [if_pos (by omega)]
    congr 2
  have hblen : ((P.take (k + 1)).drop 1).length = k := by
    simp only [List.length_drop, List.length_take]; omega
  have hbget : ∀ t, t < k → ((P.take (k + 1)).drop 1)[t]? = P[t + 1]? := by
    intro t ht
    rw [List.getElem?_drop, List.getElem?_take_of_lt (by omega), Nat.add_comm]
  obtain ⟨L, hL, hLn, hLk, hm, hmis⟩ := longestCommonSuffix_spec P ((P.take (k + 1)).drop 1)
  rw [hblen] at hLk
  have hkL : k - L < P.length := by omega
  have hnL : P.length - 1 - L < P.length := by omega
  have hx : index P ((k : Int) - (L : Int)) = some P[k - L] := by
    rw [index_eq_of_toNat P _ (k - L) (by omega), List.getElem?_eq_getElem]
  have hy : index P ((P.length : Int) - 1 - (L : Int)) =
      some P[P.length - 1 - L] := by
    rw [index_eq_of_toNat P _ (P.length - 1 - L) (by omega), List.getElem?_eq_getElem]
  have key : ∀ j, j < P.length → P.length - 1 - k ≤ j → Recur P j (P.length - 1 - k) →
      L = P.length - 1 - j ∧ P[k - L] ≠ P[P.length - 1 - L] := by
    intro j hj hdj hr
    have hLj := recur_lcs P _ k L j hk hblen hbget hLk hm hmis hj hdj hr
    refine ⟨hLj, ?_⟩
    intro hxy
    have h2 := hr.2
    have e1 : j - (P.length - 1 - k) = k - L := by omega
    have e2 : j = P.length - 1 - L := by omega
    rw [e1] at h2
    rw [e2] at h2
    rw [List.getElem?_eq_getElem (show k - L < P.length by omega),
      List.getElem?_eq_getElem (show P.length - 1 - L < P.length by omega), hxy] at h2
    exact h2 rfl
  unfold goodSuffixSecondStep
  rw [hs]
  simp only []
  rw [hL]
  simp only []
  rw [hx, hy]
  simp only []
  by_cases hxy : P[k - L] = P[P.length - 1 - L]
  · rw [if_neg (by simpa using hxy)]
    refine ⟨good, rfl, hlen, ?_⟩
    intro j hj
    obtain ⟨g, hg1, hg2, hg3, hg4⟩ := hg j hj
    refine ⟨g, hg1, hg2, hg3, ?_⟩
    intro d hd1 hdj hkd hr
    by_cases hold : P.length - 1 < k + d
    · exact hg4 d hd1 hdj hold hr
    · have hd : d = P.length - 1 - k := by omega
      subst hd
      exact absurd hxy (key j hj hdj hr).2
  · rw [if_pos (by simpa using hxy)]
    have hst : store good ((P.length : Int) - 1 - (L : Int)) ((L : Int) + ((P.length : Int) - 1) - (k : Int))
        = some (good.set (P.length - 1 - L) ((L : Int) + ((P.length : Int) - 1) - (k : Int))) := by
      unfold store
      rw [if_pos (by omega)]
      congr 2
      omega
    rw [hst]
    refine ⟨_, rfl, by simpa using hlen, ?_⟩
    intro j hj
    by_cases hj0 : j = P.length - 1 - L
    · refine ⟨_, by rw [hj0]; exact List.getElem?_set_self (by omega), by omega, ?_, ?_⟩
      · intro d hd _; omega
      · intro d _ _ hkd _; omega
    · obtain ⟨g, hg1, hg2, hg3, hg4⟩ := hg j hj
      refine ⟨g, ?_, hg2, hg3, ?_⟩
      · rw [List.getElem?_set_ne (by omega)]; exact hg1
      · intro d hd1 hdj hkd hr
        by_cases hold : P.length - 1 < k + d
        · exact hg4 d hd1 hdj hold hr
        · have hd : d = P.length - 1 - k := by omega
          subst hd
          exact absurd (key j hj hdj hr).1 (by omega)

theorem prefixAt_of_forall (P : List Byte) (d : Nat)
    (h : ∀ t : Nat, d ≤ t → t < P.length → P[t - d]? = P[t]?) : PrefixAt P d := by
  unfold PrefixAt
  rw [List.prefix_iff_eq_take]
  apply List.ext_getElem?
  intro u
  rw [List.getElem?_drop, List.length_drop]
  by_cases hu : u < P.length - d
  · rw [List.getElem?_take_of_lt hu]
    have := h (d + u) (by omega) (by omega)
    rw [Nat.add_sub_cancel_left] at this
    exact this.symm
  · rw [List.getElem?_eq_none (by omega), List.getElem?_eq_none (by simp; omega)]

theorem makeGoodSuffixSecond_spec (P : List Byte) (good : List Int) (h1 : FirstOk P good) :
    ∃ good2, makeGoodSuffixSecond P good = some good2 ∧ GoodSuffixOk P good2 := by
  unfold makeGoodSuffixSecond
  obtain ⟨good2, hg2, hlen, hI⟩ := foldlM_range_inv
    (goodSuffixSecondStep P ((P.length : Int) - 1)) (SecondInv P)
    ((P.length : Int) - 1).toNat good
    ⟨h1.1, fun j hj => by
      obtain ⟨g, ha, hb, hc⟩ := h1.2 j hj
      exact ⟨g, ha, hb, hc, fun d hd1 hdj hkd _ => by omega⟩⟩
    (fun k s hk hI => goodSuffixSecondStep_spec P k s (by omega) hI)
  refine ⟨good2, hg2, hlen, ?_⟩
  intro j hj
  obtain ⟨g, ha, hb, hc, hd⟩ := hI j hj
  refine ⟨g, ha, hb, ?_⟩
  intro d hd1 hf
  by_cases hdj : d ≤ j
  · exact hd d hd1 hdj (by omega) ⟨fun t ht1 ht2 => hf.1 t ht1 ht2 (by omega), hf.2 hdj⟩
  · exact hc d (by omega)
      (prefixAt_of_forall P d (fun t ht1 ht2 => hf.1 t (by omega) ht2 ht1))

theorem MakeStringFinder_spec (P : List Byte) :
    ∃ f, MakeStringFinder P = some f ∧ FinderOk P f := by
  obtain ⟨bad, hbad, hB⟩ := makeBadCharSkip_spec P
  obtain ⟨st, hst, hF⟩ := makeGoodSuffixFirst_spec P
  obtain ⟨good, hgood, hG⟩ := makeGoodSuffixSecond_spec P st.2 hF
  refine ⟨⟨P, bad, good⟩, ?_, rfl, hB, hG⟩
  unfold MakeStringFinder
  rw [hbad, hst]
  simp only []
  rw [hgood]

/-! ## The search loop: properties -/

theorem nextInner_spec (f : stringFinder) (text : List Byte) (s k : Nat) (fuel : Nat)
    (hfuel : k + 1 ≤ fuel) (hk : k ≤ f.pattern.length)
    (hfit : s + f.pattern.length ≤ text.length)
    (hm : ∀ t, k ≤ t → t < f.pattern.length → text[s + t]? = f.pattern[t]?) :
    (nextInner f text fuel ((s : Int) + (k : Int) - 1) ((k : Int) - 1) = some ((s : Int) - 1, -1) ∧
      ∀ t, t < f.pattern.length → text[s + t]? = f.pattern[t]?) ∨
    (∃ j : Nat, j < k ∧
      nextInner f text fuel ((s : Int) + (k : Int) - 1) ((k : Int) - 1)
        = some ((s : Int) + (j : Int), (j : Int)) ∧
      text[s + j]? ≠ f.pattern[j]? ∧
      ∀ t, j < t → t < f.pattern.length → text[s + t]? = f.pattern[t]?) := by
  induction k generalizing fuel with
  | zero =>
    left
    cases fuel with
    | zero => omega
    | succ fuel =>
      refine ⟨?_, fun t ht => hm t (Nat.zero_le t) ht⟩
      unfold nextInner
      rw [if_neg (by omega)]
      simp
  | succ k ih =>
    cases fuel with
    | zero => omega
    | succ fuel =>
      have hkP : k < f.pattern.length := by omega
      have hkT : s + k < text.length := by omega
      unfold nextInner
      rw [if_pos (by omega), index_eq_of_toNat text _ (s + k) (by push_cast; omega),
        index_eq_of_toNat f.pattern _ k (by push_cast; omega),
        List.getElem?_eq_getElem hkT, List.getElem?_eq_getElem hkP]
      simp only []
      by_cases heq : text[s + k] = f.pattern[k]
      · rw [if_pos heq]
        have e1 : (s : Int) + ((k + 1 : Nat) : Int) - 1 - 1 = (s : Int) + (k : Int) - 1 := by
          push_cast; omega
        have e2 : ((k + 1 : Nat) : Int) - 1 - 1 = (k : Int) - 1 := by push_cast; omega
        rw [e1, e2]
        have hm1 : ∀ t, k ≤ t → t < f.pattern.length → text[s + t]? = f.pattern[t]? := by
          intro t ht1 ht2
          by_cases htk : t = k
          · subst htk
            rw [List.getElem?_eq_getElem hkT, List.getElem?_eq_getElem hkP, heq]
          · exact hm t (by omega) ht2
        rcases ih fuel (by omega) (by omega) hm1 with h | ⟨j, hj, h1, h2, h3⟩
        · exact Or.inl h
        · exact Or.inr ⟨j, by omega, h1, h2, h3⟩
      · rw [if_neg heq]
        right
        refine ⟨k, by omega, ?_, ?_, fun t ht1 ht2 => hm t (by omega) ht2⟩
        · congr 2
          · push_cast; omega
          · push_cast; omega
        · rw [List.getElem?_eq_getElem hkT, List.getElem?_eq_getElem hkP]
          simpa using heq

theorem shift_safe (P : List Byte) (f : stringFinder) (hf : FinderOk P f) (T : List Byte)
    (s j : Nat) (b : Byte) (g : Int) (hj : j < P.length)
    (hb : T[s + j]? = some b) (hg : f.goodSuffixSkip[j]? = some g)
    (hmis : T[s + j]? ≠ P[j]?)
    (hsuf : ∀ t, j < t → t < P.length → T[s + t]? = P[t]?) :
    (P.length : Int) - j ≤ max (f.badCharSkip b) g ∧
    ∀ k : Nat, s < k → MatchAt P T k →
      (s : Int) + j + max (f.badCharSkip b) g - ((P.length : Int) - 1) ≤ k := by
  obtain ⟨_, ⟨hB1, hB2⟩, ⟨_, hG⟩⟩ := hf
  obtain ⟨g1, hg1, hlo, hup⟩ := hG j hj
  rw [hg] at hg1
  have hgg : g = g1 := Option.some.inj hg1
  subst hgg
  have hmax1 : g ≤ max (f.badCharSkip b) g := by unfold max; split <;> omega
  have hmax2 : max (f.badCharSkip b) g = f.badCharSkip b ∨ max (f.badCharSkip b) g = g := by
    unfold max; split
    · exact Or.inl rfl
    · exact Or.inr rfl
  refine ⟨by omega, ?_⟩
  intro k hk ⟨hfit, hmatch⟩
  have hfeas : Feasible P j (k - s) := by
    constructor
    · intro t ht1 ht2 ht3
      have h1 := hmatch (t - (k - s)) (by omega)
      have e : k + (t - (k - s)) = s + t := by omega
      rw [e] at h1
      rw [← h1]
      exact hsuf t ht1 ht2
    · intro hd
      have h1 := hmatch (j - (k - s)) (by omega)
      have e : k + (j - (k - s)) = s + j := by omega
      rw [e] at h1
      rw [← h1]
      exact hmis
  have hgood := hup (k - s) (by omega) hfeas
  have hbad : f.badCharSkip b ≤ ((k - s : Nat) : Int) + ((P.length : Int) - 1) - j := by
    by_cases hd : k - s ≤ j
    · have h1 := hmatch (j - (k - s)) (by omega)
      have e : k + (j - (k - s)) = s + j := by omega
      rw [e, hb] at h1
      have := hB2 (j - (k - s)) b (by omega) h1.symm
      omega
    · have := hB1 b
      omega
  rcases hmax2 with h | h <;> rw [h] <;> omega

theorem isFirstMatch_unique (P T : List Byte) (r1 r2 : Int)
    (h1 : IsFirstMatch P T r1) (h2 : IsFirstMatch P T r2) : r1 = r2 := by
  rcases h1 with ⟨e1, n1⟩ | ⟨k1, e1, m1, l1⟩ <;> rcases h2 with ⟨e2, n2⟩ | ⟨k2, e2, m2, l2⟩
  · rw [e1, e2]
  · exact absurd m2 (n1 k2)
  · exact absurd m1 (n2 k1)
  · rw [e1, e2]
    rcases Nat.lt_trichotomy k1 k2 with h | h | h
    · exact absurd m1 (l2 k1 h)
    · rw [h]
    · exact absurd m2 (l1 k2 h)

theorem nextLoop_spec (f : stringFinder) (T : List Byte) (hf : FinderOk f.pattern f)
    (hP : 0 < f.pattern.length) (fuel s : Nat)
    (hfuel1 : 1 ≤ fuel) (hfuel : T.length + 1 ≤ fuel + s)
    (hno : ∀ k, k < s → ¬ MatchAt f.pattern T k) :
    ∃ r, nextLoop f T fuel ((s : Int) + (f.pattern.length : Int) - 1) = some r ∧
      IsFirstMatch f.pattern T r := by
  induction fuel generalizing s with
  | zero => omega
  | succ fuel ih =>
    unfold nextLoop
    by_cases hfit : s + f.pattern.length ≤ T.length
    · rw [if_pos (by omega)]
      rcases nextInner_spec f T s f.pattern.length (f.pattern.length + 1) (by omega)
        (le_refl _) hfit (fun t h1 h2 => by omega) with ⟨h, hall⟩ | ⟨j, hj, h, hmis, hsuf⟩
      · rw [h]
        simp only []
        rw [if_pos (by omega)]
        exact ⟨_, rfl, Or.inr ⟨s, by omega, ⟨hfit, hall⟩, hno⟩⟩
      · rw [h]
        simp only []
        rw [if_neg (by omega)]
        have hjT : s + j < T.length := by omega
        obtain ⟨g, hg, _⟩ := hf.2.2.2 j hj
        rw [index_eq_of_toNat T _ (s + j) (by push_cast; omega), index_natCast, hg,
          List.getElem?_eq_getElem hjT]
        simp only []
        obtain ⟨hpos, hsafe⟩ := shift_safe f.pattern f hf T s j T[s + j] g hj
          (List.getElem?_eq_getElem hjT) hg hmis hsuf
        generalize max (f.badCharSkip T[s + j]) g = mx at hpos hsafe
        obtain ⟨s1, hs1⟩ : ∃ s1 : Nat, (s1 : Int) = (s : Int) + j + mx -
            ((f.pattern.length : Int) - 1) :=
          ⟨((s : Int) + j + mx - ((f.pattern.length : Int) - 1)).toNat, by omega⟩
        have hcur : (s : Int) + (j : Int) + mx = (s1 : Int) + (f.pattern.length : Int) - 1 := by
          omega
        rw [hcur]
        apply ih s1 (by omega) (by omega)
        intro k hk hmk
        rcases Nat.lt_trichotomy k s with h1 | h1 | h1
        · exact hno k h1 hmk
        · subst h1
          exact hmis (hmk.2 j hj)
        · have := hsafe k h1 hmk
          omega
    · rw [if_neg (by omega)]
      refine ⟨_, rfl, Or.inl ⟨rfl, ?_⟩⟩
      intro k hmk
      by_cases hk : k < s
      · exact hno k hk hmk
      · have := hmk.1
        omega

theorem next_spec (P : List Byte) (f : stringFinder) (hf : FinderOk P f) (T : List Byte) :
    ∃ r, next f T = some r ∧ IsFirstMatch P T r := by
  have hpat : f.pattern = P := hf.1
  subst hpat
  unfold next
  by_cases hP : 0 < f.pattern.length
  · have h := nextLoop_spec f T hf hP (T.length + 1) 0 (by omega) (by omega)
      (fun k hk => by omega)
    simpa using h
  · have h0 : f.pattern.length = 0 := by omega
    refine ⟨0, ?_, Or.inr ⟨0, rfl, ⟨by omega, fun t ht => by omega⟩, fun k hk => by omega⟩⟩
    have hlt : (-1 : Int) < (T.length : Int) := by omega
    simp [nextLoop, nextInner, h0, hlt]

theorem take_drop_eq_iff (P T : List Byte) (k : Nat) (hk : k + P.length ≤ T.length) :
    (T.drop k).take P.length = P ↔ MatchAt P T k := by
  constructor
  · intro h
    refine ⟨hk, fun t ht => ?_⟩
    have := congrArg (fun l => l[t]?) h
    simp only [] at this
    rw [List.getElem?_take_of_lt ht, List.getElem?_drop] at this
    exact this
  · intro h
    apply List.ext_getElem?
    intro t
    by_cases ht : t < P.length
    · rw [List.getElem?_take_of_lt ht, List.getElem?_drop]
      exact h.2 t ht
    · rw [List.getElem?_eq_none (by simp; omega), List.getElem?_eq_none (by omega)]

theorem naiveSearchFrom_spec (P T : List Byte) (c k : Nat)
    (hck : k + c = T.length + 1 - P.length) (hno : ∀ k1, k1 < k → ¬ MatchAt P T k1) :
    IsFirstMatch P T (naiveSearchFrom P T c k) := by
  induction c generalizing k with
  | zero =>
    unfold naiveSearchFrom
    refine Or.inl ⟨rfl, fun k1 hm => ?_⟩
    by_cases hk1 : k1 < k
    · exact hno k1 hk1 hm
    · have := hm.1
      omega
  | succ c ih =>
    unfold naiveSearchFrom
    have hfit : k + P.length ≤ T.length := by omega
    by_cases h : (T.drop k).take P.length = P
    · rw [if_pos h]
      exact Or.inr ⟨k, rfl, (take_drop_eq_iff P T k hfit).1 h, hno⟩
    · rw [if_neg h]
      apply ih (k + 1) (by omega)
      intro k1 hk1 hm
      by_cases hk : k1 < k
      · exact hno k1 hk hm
      · have : k1 = k := by omega
        subst this
        exact h ((take_drop_eq_iff P T k1 hfit).2 hm)

theorem naiveSearch_spec (P T : List Byte) : IsFirstMatch P T (naiveSearch P T) :=
  naiveSearchFrom_spec P T _ 0 (by omega) (fun k hk => by omega)

theorem next_MakeStringFinder (P T : List Byte) :
    ∃ f, MakeStringFinder P = some f ∧ f.pattern = P ∧ next f T = some (naiveSearch P T) ∧
      IsFirstMatch P T (naiveSearch P T) := by
  obtain ⟨f, hf, hok⟩ := MakeStringFinder_spec P
  obtain ⟨r, hr, hfirst⟩ := next_spec P f hok T
  have hrn : r = naiveSearch P T := isFirstMatch_unique P T _ _ hfirst (naiveSearch_spec P T)
  exact ⟨f, hf, hok.1, by rw [hr, hrn], naiveSearch_spec P T⟩

/-- C1: for every pattern `P` and text `T`, `MakeStringFinder(P)` builds a finder and its
`next(T)` returns what the naive search over every offset of `T` returns; that value is
either `-1`, with no offset `k ≤ len(T) - len(P)` at which `T[k:k+len(P)] = P`, or the
smallest such offset; and it is `-1` whenever `len(P) > len(T)`. -/
theorem next_agrees_with_naive_search (P T : List Byte) :
    ∃ f, MakeStringFinder P = some f ∧ next f T = some (naiveSearch P T) ∧
      ((naiveSearch P T = -1 ∧
          ∀ k : Nat, k + P.length ≤ T.length → (T.drop k).take P.length ≠ P) ∨
        (∃ k : Nat, naiveSearch P T = (k : Int) ∧ k + P.length ≤ T.length ∧
          (T.drop k).take P.length = P ∧
          ∀ k1 : Nat, k1 < k → (T.drop k1).take P.length ≠ P)) ∧
      (T.length < P.length → naiveSearch P T = -1) := by
  obtain ⟨f, hf, _, hnext, hfirst⟩ := next_MakeStringFinder P T
  refine ⟨f, hf, hnext, ?_, ?_⟩
  · rcases hfirst with ⟨h1, h2⟩ | ⟨k, h1, h2, h3⟩
    · exact Or.inl ⟨h1, fun k hk h => h2 k ((take_drop_eq_iff P T k hk).1 h)⟩
    · refine Or.inr ⟨k, h1, h2.1, (take_drop_eq_iff P T k h2.1).2 h2, fun k1 hk1 h => ?_⟩
      exact h3 k1 hk1 ((take_drop_eq_iff P T k1 (by have := h2.1; omega)).1 h)
  · intro hlen
    rcases hfirst with ⟨h1, _⟩ | ⟨k, _, h2, _⟩
    · exact h1
    · have := h2.1
      omega

/-- C8: for the empty pattern `MakeStringFinder` builds a finder without panicking, and
`next` returns `0` for every text, the empty text included. -/
theorem next_empty_pattern (T : List Byte) :
    ∃ f, MakeStringFinder [] = some f ∧ next f T = some 0 ∧ next f [] = some 0 := by
  obtain ⟨f, hf, hok⟩ := MakeStringFinder_spec []
  have hzero : ∀ T1 : List Byte, next f T1 = some 0 := by
    intro T1
    obtain ⟨r, hr, hfirst⟩ := next_spec [] f hok T1
    have h0 : IsFirstMatch [] T1 0 :=
      Or.inr ⟨0, rfl, ⟨by simp, fun t ht => by simp at ht⟩, fun k hk => by omega⟩
    rw [hr, isFirstMatch_unique [] T1 r 0 hfirst h0]
  exact ⟨f, hf, hzero T, hzero []⟩

/-! ## `pkg/grep/search.go`: the per-file loop of `searchWorker`: properties -/

theorem IndexByte_eq_neg_one (b : List Byte) (c : Byte) (h : c ∉ b) : IndexByte b c = -1 := by
  unfold IndexByte
  rw [if_neg h]

theorem IndexByte_ne_neg_one (b : List Byte) (c : Byte) (h : c ∈ b) : IndexByte b c ≠ -1 := by
  unfold IndexByte
  rw [if_pos h]
  omega

theorem next_total_of_made (P : List Byte) (f : stringFinder) (hf : MakeStringFinder P = some f)
    (T : List Byte) : ∃ r, next f T = some r := by
  obtain ⟨f1, hf1, hok⟩ := MakeStringFinder_spec P
  rw [hf] at hf1
  obtain rfl := Option.some.inj hf1
  obtain ⟨r, hr, _⟩ := next_spec P f hok T
  exact ⟨r, hr⟩

/-- From options of one of the two kinds the matcher's answer on a line is defined: the
loop body reduces to `afterLine` on `matcherFinds`. -/
theorem fileLoop_cons {ρ : Type} (find : ρ → List Byte → Option (List Byte)) (path : String)
    (opts : SearchOptions ρ) (hok : OptionsOk opts) (text : List Byte)
    (rest : List (List Byte)) (line : Int) (isBinary : Bool) :
    fileLoop find path opts (text :: rest) line isBinary =
      afterLine path opts.Lines
        (if line = 1 then decide (IndexByte text 0 ≠ -1) else isBinary) line text
        (matcherFinds find opts text)
        (fileLoop find path opts rest (line + 1)
          (if line = 1 then decide (IndexByte text 0 ≠ -1) else isBinary)) := by
  rcases hok with ⟨hk, P, f, hf, hfind⟩ | ⟨hk, re, hre⟩
  · obtain ⟨r, hr⟩ := next_total_of_made P f hf text
    simp only [fileLoop, matcherFinds, hk, hfind, hr, if_true]
  · have hne : ¬ (REGEX = LITERAL) := by decide
    simp only [fileLoop, matcherFinds, hk, hre, hne, if_true, if_false]

theorem fileLoop_text {ρ : Type} (find : ρ → List Byte → Option (List Byte)) (path : String)
    (opts : SearchOptions ρ) (hok : OptionsOk opts) (lines : List (List Byte)) (start : Nat)
    (hnul : start = 0 → ∀ l, lines.head? = some l → (0 : Byte) ∉ l) :
    fileLoop find path opts lines ((start : Int) + 1) false =
      some (expectedOutputs find path opts start lines, lines.length) := by
  induction lines generalizing start with
  | nil => simp [fileLoop, expectedOutputs]
  | cons text rest ih =>
    have hb : (if (start : Int) + 1 = 1 then decide (IndexByte text 0 ≠ -1) else false)
        = false := by
      by_cases hs : start = 0
      · have h0 := IndexByte_eq_neg_one text 0 (hnul hs text rfl)
        simp [hs, h0]
      · rw [if_neg (by omega)]
    have hrest := ih (start + 1) (fun h => by omega)
    rw [fileLoop_cons find path opts hok, hb]
    have hcast : ((start : Int) + 1 + 1) = (((start + 1 : Nat) : Int) + 1) := by push_cast; rfl
    rw [hcast, hrest]
    unfold afterLine report expectedOutputs
    by_cases hm : matcherFinds find opts text = true
    · by_cases hl : opts.Lines = true <;> simp [hm, hl, List.enumFrom]
    · simp [hm, List.enumFrom]

theorem filter_enumFrom_map_snd (m : List Byte → Bool) (lines : List (List Byte)) (start : Nat) :
    ((lines.enumFrom start).filter (fun p => m p.2)).map (fun p => p.2) = lines.filter m := by
  induction lines generalizing start with
  | nil => rfl
  | cons text rest ih =>
    by_cases h : m text = true
    · simp [List.enumFrom, List.filter_cons, h, ih]
    · simp [List.enumFrom, List.filter_cons, h, ih]

theorem fileLoop_binary_none {ρ : Type} (find : ρ → List Byte → Option (List Byte))
    (path : String) (opts : SearchOptions ρ) (hok : OptionsOk opts) (lines : List (List Byte))
    (line : Int) (isBinary : Bool)
    (hno : ∀ l, l ∈ lines → matcherFinds find opts l = false) :
    fileLoop find path opts lines line isBinary = some ([], lines.length) := by
  induction lines generalizing line isBinary with
  | nil => simp [fileLoop]
  | cons text rest ih =>
    rw [fileLoop_cons find path opts hok, hno text (List.mem_cons_self _ _),
      ih _ _ (fun l hl => hno l (List.mem_cons_of_mem _ hl))]
    simp [afterLine]

theorem fileLoop_binary_hit {ρ : Type} (find : ρ → List Byte → Option (List Byte))
    (path : String) (opts : SearchOptions ρ) (hok : OptionsOk opts)
    (pre : List (List Byte)) (l : List Byte) (post : List (List Byte)) (start : Nat)
    (isBinary : Bool)
    (hbin : if start = 0 then ∀ x, (pre ++ l :: post).head? = some x → (0 : Byte) ∈ x
      else isBinary = true)
    (hpre : ∀ x, x ∈ pre → matcherFinds find opts x = false)
    (hl : matcherFinds find opts l = true) :
    fileLoop find path opts (pre ++ l :: post) ((start : Int) + 1) isBinary =
      some ([Output.binary path], pre.length + 1) := by
  induction pre generalizing start isBinary with
  | nil =>
    have hb : (if (start : Int) + 1 = 1 then decide (IndexByte l 0 ≠ -1) else isBinary)
        = true := by
      by_cases hs : start = 0
      · rw [if_pos hs] at hbin
        have h0 := IndexByte_ne_neg_one l 0 (hbin l rfl)
        simp [hs, h0]
      · rw [if_neg hs] at hbin
        rw [if_neg (by omega)]
        exact hbin
    rw [List.nil_append, fileLoop_cons find path opts hok, hb, hl]
    simp [afterLine, report]
  | cons x pre ih =>
    have hb : (if (start : Int) + 1 = 1 then decide (IndexByte x 0 ≠ -1) else isBinary)
        = true := by
      by_cases hs : start = 0
      · rw [if_pos hs] at hbin
        have h0 := IndexByte_ne_neg_one x 0 (hbin x rfl)
        simp [hs, h0]
      · rw [if_neg hs] at hbin
        rw [if_neg (by omega)]
        exact hbin
    have hcast : ((start : Int) + 1 + 1) = (((start + 1 : Nat) : Int) + 1) := by push_cast; rfl
    rw [List.cons_append, fileLoop_cons find path opts hok, hb,
      hpre x (List.mem_cons_self _ _), hcast,
      ih (start + 1) true (by simp) (fun y hy => hpre y (List.mem_cons_of_mem _ hy))]
    simp [afterLine]

theorem exists_first_match (m : List Byte → Bool) (lines : List (List Byte))
    (h : ∃ l, l ∈ lines ∧ m l = true) :
    ∃ pre l post, lines = pre ++ l :: post ∧ (∀ x, x ∈ pre → m x = false) ∧ m l = true := by
  induction lines with
  | nil =>
    obtain ⟨l, hl, _⟩ := h
    cases hl
  | cons x rest ih =>
    by_cases hx : m x = true
    · exact ⟨[], x, rest, rfl, fun y hy => absurd hy (List.not_mem_nil y), hx⟩
    · obtain ⟨l, hl, hml⟩ := h
      have hrest : ∃ l, l ∈ rest ∧ m l = true := by
        rcases List.mem_cons.1 hl with h1 | h1
        · rw [h1] at hml; exact absurd hml hx
        · exact ⟨l, h1, hml⟩
      obtain ⟨pre, l1, post, h1, h2, h3⟩ := ih hrest
      refine ⟨x :: pre, l1, post, by rw [h1, List.cons_append], ?_, h3⟩
      intro y hy
      rcases List.mem_cons.1 hy with h4 | h4
      · rw [h4]; simpa using hx
      · exact h2 y h4

theorem fileLoop_reports_each_matching_line {ρ : Type}
    (find : ρ → List Byte → Option (List Byte)) (path : String) (opts : SearchOptions ρ)
    (lines : List (List Byte)) (hok : OptionsOk opts)
    (hnul : ∀ l, lines.head? = some l → (0 : Byte) ∉ l) :
    fileLoop find path ⟨opts.Kind, true, opts.Regex, opts.Finder⟩ lines 1 false =
      some (((lines.enum.filter (fun p => matcherFinds find opts p.2)).map
        (fun p => Output.numbered path ((p.1 : Int) + 1) p.2)), lines.length) ∧
    fileLoop find path ⟨opts.Kind, false, opts.Regex, opts.Finder⟩ lines 1 false =
      some ((lines.filter (matcherFinds find opts)).map (Output.plain path), lines.length) ∧
    (((lines.enum.filter (fun p => matcherFinds find opts p.2)).map
        (fun p => Output.numbered path ((p.1 : Int) + 1) p.2)).filterMap Output.text?
      = lines.filter (matcherFinds find opts)) ∧
    (((lines.filter (matcherFinds find opts)).map (Output.plain path)).filterMap Output.text?
      = lines.filter (matcherFinds find opts)) := by
  have hokb : ∀ b : Bool, OptionsOk (⟨opts.Kind, b, opts.Regex, opts.Finder⟩ : SearchOptions ρ) :=
    fun b => hok
  have h1 := fileLoop_text find path ⟨opts.Kind, true, opts.Regex, opts.Finder⟩ (hokb true)
    lines 0 (fun _ => hnul)
  have h2 := fileLoop_text find path ⟨opts.Kind, false, opts.Regex, opts.Finder⟩ (hokb false)
    lines 0 (fun _ => hnul)
  have hsnd := filter_enumFrom_map_snd (matcherFinds find opts) lines 0
  refine ⟨?_, ?_, ?_, ?_⟩
  · simpa [expectedOutputs, List.enum] using h1
  · have h3 : expectedOutputs find path
        (⟨opts.Kind, false, opts.Regex, opts.Finder⟩ : SearchOptions ρ) 0 lines =
        (lines.filter (matcherFinds find opts)).map (Output.plain path) := by
      rw [← hsnd]
      simp [expectedOutputs, List.map_map, Function.comp_def]
      rfl
    rw [h3] at h2
    simpa using h2
  · rw [← hsnd, List.filterMap_map, List.enum]
    simp only [Function.comp_def, Output.text?]
    exact congrFun (List.filterMap_eq_map (fun p : Nat × List Byte => p.2)) _
  · rw [List.filterMap_map]
    simp [Function.comp_def, Output.text?]

theorem splitLines_append_newline (l rest cur : List Byte) (h : (10 : Byte) ∉ l) :
    splitLines cur (l ++ 10 :: rest) = (cur ++ l) :: splitLines [] rest := by
  induction l generalizing cur with
  | nil => simp [splitLines]
  | cons c l ih =>
    have hc : c ≠ 10 := fun hc => h (by rw [hc]; exact List.mem_cons_self _ _)
    have hl : (10 : Byte) ∉ l := fun hl => h (List.mem_cons_of_mem _ hl)
    rw [List.cons_append, splitLines, if_neg hc, ih _ hl]
    simp

theorem takeWhile_short_cons (r : List Byte) (rs : List (List Byte))
    (hp : r.length < MaxScanTokenSize) :
    (r :: rs).takeWhile (fun l => decide (l.length < MaxScanTokenSize))
      = r :: rs.takeWhile (fun l => decide (l.length < MaxScanTokenSize)) := by
  rw [List.takeWhile_cons]
  simp only [hp, decide_True, if_true]

theorem takeWhile_long_cons (r : List Byte) (rs : List (List Byte))
    (hp : ¬ r.length < MaxScanTokenSize) :
    (r :: rs).takeWhile (fun l => decide (l.length < MaxScanTokenSize)) = [] := by
  rw [List.takeWhile_cons]
  simp only [hp, decide_False, Bool.false_eq_true, if_false]

theorem scannerTokens_head (content l : List Byte)
    (h : (scannerTokens content).head? = some l) : (fileLines content).head? = some l := by
  unfold scannerTokens at h
  unfold fileLines
  cases hr : rawLines content with
  | nil =>
    rw [hr] at h
    simp at h
  | cons r rs =>
    rw [hr] at h
    by_cases hp : r.length < MaxScanTokenSize
    · rw [takeWhile_short_cons r rs hp] at h
      simpa using h
    · rw [takeWhile_long_cons r rs hp] at h
      simp at h

theorem takeWhile_of_forall {α : Type} (p : α → Bool) (xs : List α)
    (h : ∀ x, x ∈ xs → p x = true) : xs.takeWhile p = xs := by
  induction xs with
  | nil => rfl
  | cons x xs ih =>
    rw [List.takeWhile_cons_of_pos (h x (List.mem_cons_self _ _)),
      ih (fun y hy => h y (List.mem_cons_of_mem _ hy))]

theorem scannerTokens_of_short (content : List Byte)
    (h : ∀ l, l ∈ rawLines content → l.length < MaxScanTokenSize) :
    scannerTokens content = fileLines content := by
  unfold scannerTokens fileLines
  rw [takeWhile_of_forall _ _ (fun l hl => decide_eq_true (h l hl))]

theorem longLine_length (c : Byte) : (longLine c).length = 70000 := by
  unfold longLine
  exact List.length_replicate _ _

theorem longLine_no_newline (c : Byte) (hc : c ≠ 10) : (10 : Byte) ∉ longLine c := by
  unfold longLine
  intro h
  exact hc (List.eq_of_mem_replicate h).symm

theorem rawLines_prefix_long (first : List Byte) (c : Byte) (hfirst : (10 : Byte) ∉ first)
    (hc : c ≠ 10) :
    rawLines (first ++ 10 :: (longLine c ++ 10 :: [98, 10])) = [first, longLine c, [98]] := by
  unfold rawLines
  rw [splitLines_append_newline first _ [] hfirst,
    splitLines_append_newline (longLine c) _ [] (longLine_no_newline c hc)]
  simp [splitLines]

theorem scannerTokens_prefix_long (first : List Byte) (c : Byte)
    (hfirst : (10 : Byte) ∉ first) (hc : c ≠ 10) (hshort : first.length < MaxScanTokenSize) :
    scannerTokens (first ++ 10 :: (longLine c ++ 10 :: [98, 10])) = [dropCR first] := by
  unfold scannerTokens
  rw [rawLines_prefix_long first c hfirst hc, takeWhile_short_cons _ _ hshort,
    takeWhile_long_cons _ _ (by
      rw [longLine_length]
      decide)]
  rfl

theorem fileLines_prefix_long (first : List Byte) (c : Byte)
    (hfirst : (10 : Byte) ∉ first) (hc : c ≠ 10) :
    fileLines (first ++ 10 :: (longLine c ++ 10 :: [98, 10]))
      = [dropCR first, dropCR (longLine c), [98]] := by
  unfold fileLines
  rw [rawLines_prefix_long first c hfirst hc]
  rfl

/-- C2, as stated, fails: the file `a`, 70000 times `b`, `b` has no NUL in its first line
and its third line `b` matches the query `b`, but the scanner stops at the second line,
which is too long for it, and nothing is printed, with `Lines` or without. -/
theorem searchWorker_long_line_ends_the_scan :
    (∀ l, (fileLines exampleLongFile).head? = some l → (0 : Byte) ∉ l) ∧
    ([98] : List Byte) ∈ fileLines exampleLongFile ∧
    matcherFinds exampleFind (exampleOptions true) [98] = true ∧
    scanFile exampleFind "f" (exampleOptions true) exampleLongFile = some ([], 1) ∧
    scanFile exampleFind "f" (exampleOptions false) exampleLongFile = some ([], 1) := by
  have hlines := fileLines_prefix_long [97] 98 (by decide) (by decide)
  have htokens := scannerTokens_prefix_long [97] 98 (by decide) (by decide) (by decide)
  refine ⟨?_, ?_, by decide, ?_, ?_⟩
  · unfold exampleLongFile
    rw [hlines]
    intro l hl
    have h1 : l = dropCR [97] := (Option.some.inj hl).symm
    rw [h1]
    decide
  · unfold exampleLongFile
    rw [hlines]
    exact List.mem_cons_of_mem _ (List.mem_cons_of_mem _ (List.mem_singleton.2 rfl))
  · unfold scanFile exampleLongFile
    rw [htokens]
    decide
  · unfold scanFile exampleLongFile
    rw [htokens]
    decide

/-- C2, amended: for a file whose first line holds no NUL byte, with options of either
matcher kind, the per-file loop of `searchWorker` ends, having read the lines that the
scanner delivers (those before the first raw line of `MaxScanTokenSize = 65536` bytes
or more; all the lines of a file without such a line), and prints exactly one output per
delivered line on which the matcher finds a match, in line order: with `Lines` set the
output carries the line's 1-based number, without it only the path and the text; the
texts reported are the matching delivered lines in both cases. -/
theorem searchWorker_reports_each_delivered_matching_line {ρ : Type}
    (find : ρ → List Byte → Option (List Byte)) (path : String) (opts : SearchOptions ρ)
    (content : List Byte) (hok : OptionsOk opts)
    (hnul : ∀ l, (fileLines content).head? = some l → (0 : Byte) ∉ l) :
    scanFile find path ⟨opts.Kind, true, opts.Regex, opts.Finder⟩ content =
      some ((((scannerTokens content).enum.filter (fun p => matcherFinds find opts p.2)).map
        (fun p => Output.numbered path ((p.1 : Int) + 1) p.2)),
        (scannerTokens content).length) ∧
    scanFile find path ⟨opts.Kind, false, opts.Regex, opts.Finder⟩ content =
      some (((scannerTokens content).filter (matcherFinds find opts)).map (Output.plain path),
        (scannerTokens content).length) ∧
    ((((scannerTokens content).enum.filter (fun p => matcherFinds find opts p.2)).map
        (fun p => Output.numbered path ((p.1 : Int) + 1) p.2)).filterMap Output.text?
      = (scannerTokens content).filter (matcherFinds find opts)) ∧
    ((((scannerTokens content).filter (matcherFinds find opts)).map
        (Output.plain path)).filterMap Output.text?
      = (scannerTokens content).filter (matcherFinds find opts)) ∧
    ((∀ l, l ∈ rawLines content → l.length < MaxScanTokenSize) →
      scannerTokens content = fileLines content) := by
  obtain ⟨h1, h2, h3, h4⟩ := fileLoop_reports_each_matching_line find path opts
    (scannerTokens content) hok (fun l hl => hnul l (scannerTokens_head content l hl))
  exact ⟨h1, h2, h3, h4, scannerTokens_of_short content⟩

/-- C3, as stated, fails: the file `a\x00`, 70000 times `x`, `b` has a NUL in its first line
and its third line `b` matches the query `b`, but the scanner stops at the second line,
which is too long for it, and no notice is printed. -/
theorem searchWorker_binary_long_line_no_notice :
    (∃ l, (fileLines exampleLongBinaryFile).head? = some l ∧ (0 : Byte) ∈ l) ∧
    ([98] : List Byte) ∈ fileLines exampleLongBinaryFile ∧
    matcherFinds exampleFind (exampleOptions true) [98] = true ∧
    scanFile exampleFind "d" (exampleOptions true) exampleLongBinaryFile = some ([], 1) := by
  have hlines := fileLines_prefix_long [97, 0] 120 (by decide) (by decide)
  have htokens := scannerTokens_prefix_long [97, 0] 120 (by decide) (by decide) (by decide)
  refine ⟨⟨dropCR [97, 0], ?_, by decide⟩, ?_, by decide, ?_⟩
  · unfold exampleLongBinaryFile
    rw [hlines]
    rfl
  · unfold exampleLongBinaryFile
    rw [hlines]
    exact List.mem_cons_of_mem _ (List.mem_cons_of_mem _ (List.mem_singleton.2 rfl))
  · unfold scanFile exampleLongBinaryFile
    rw [htokens]
    decide

/-- C3, amended: for a file whose first line holds a NUL byte, with options of either
matcher kind, the per-file loop of `searchWorker` prints nothing when none of the lines
that the scanner delivers matches (those before the first raw line of
`MaxScanTokenSize = 65536` bytes or more; all the lines of a file without such a line),
and otherwise prints the single notice `Binary file <path> matches` and stops at the
first matching line, so that no later line is read and no text or line number is
printed. -/
theorem searchWorker_binary_file_one_notice_delivered {ρ : Type}
    (find : ρ → List Byte → Option (List Byte)) (path : String) (opts : SearchOptions ρ)
    (content first : List Byte) (hok : OptionsOk opts)
    (hfirst : (fileLines content).head? = some first) (hnul : (0 : Byte) ∈ first) :
    ((∀ l, l ∈ scannerTokens content → matcherFinds find opts l = false) →
      scanFile find path opts content = some ([], (scannerTokens content).length)) ∧
    (∀ pre l post, scannerTokens content = pre ++ l :: post →
      (∀ x, x ∈ pre → matcherFinds find opts x = false) → matcherFinds find opts l = true →
      scanFile find path opts content = some ([Output.binary path], pre.length + 1)) ∧
    ((∃ l, l ∈ scannerTokens content ∧ matcherFinds find opts l = true) →
      ∃ n, n ≤ (scannerTokens content).length ∧
        scanFile find path opts content = some ([Output.binary path], n)) ∧
    ((∀ l, l ∈ rawLines content → l.length < MaxScanTokenSize) →
      scannerTokens content = fileLines content) := by
  have hsplit : ∀ pre l post, scannerTokens content = pre ++ l :: post →
      (∀ x, x ∈ pre → matcherFinds find opts x = false) → matcherFinds find opts l = true →
      scanFile find path opts content = some ([Output.binary path], pre.length + 1) := by
    intro pre l post hsplit hpre hl
    have h := fileLoop_binary_hit find path opts hok pre l post 0 false
      (by
        rw [if_pos rfl, ← hsplit]
        intro x hx
        have hx1 := scannerTokens_head content x hx
        rw [hfirst] at hx1
        rw [← Option.some.inj hx1]
        exact hnul)
      hpre hl
    rw [← hsplit] at h
    simpa [scanFile] using h
  refine ⟨?_, hsplit, ?_, scannerTokens_of_short content⟩
  · intro hno
    exact fileLoop_binary_none find path opts hok (scannerTokens content) 1 false hno
  · intro hex
    obtain ⟨pre, l, post, h1, h2, h3⟩ :=
      exists_first_match (matcherFinds find opts) (scannerTokens content) hex
    refine ⟨pre.length + 1, ?_, hsplit pre l post h1 h2 h3⟩
    have hlen := congrArg List.length h1
    simp only [List.length_cons, List.length_append] at hlen
    omega

theorem exampleOptions_ok (Lines : Bool) : OptionsOk (exampleOptions Lines) :=
  Or.inl ⟨rfl, [98], exampleFinder, rfl, rfl⟩

/-- The text file `a`, `xb yb`, `b` searched for `b`: lines 2 and 3 are reported, once each. -/
theorem searchWorker_reports_each_delivered_matching_line_witness :
    (OptionsOk (exampleOptions true) ∧
      ∀ l, (fileLines exampleTextFile).head? = some l → (0 : Byte) ∉ l) ∧
    scanFile exampleFind "a/b" (exampleOptions true) exampleTextFile =
      some ([Output.numbered "a/b" 2 [120, 98, 32, 121, 98], Output.numbered "a/b" 3 [98]], 3) ∧
    scanFile exampleFind "a/b" (exampleOptions false) exampleTextFile =
      some ([Output.plain "a/b" [120, 98, 32, 121, 98], Output.plain "a/b" [98]], 3) :=
  ⟨⟨exampleOptions_ok true, by decide⟩,
    (searchWorker_reports_each_delivered_matching_line exampleFind "a/b" (exampleOptions true)
      exampleTextFile (exampleOptions_ok true) (by decide)).1.trans (by decide),
    (searchWorker_reports_each_delivered_matching_line exampleFind "a/b" (exampleOptions true)
      exampleTextFile (exampleOptions_ok true) (by decide)).2.1.trans (by decide)⟩

/-- The binary file searched for `b`: one notice, and the scan stops at line 2. -/
theorem searchWorker_binary_file_one_notice_delivered_witness :
    (OptionsOk (exampleOptions true) ∧
      (fileLines exampleBinaryFile).head? = some [97, 0] ∧ (0 : Byte) ∈ ([97, 0] : List Byte)) ∧
    scanFile exampleFind "d" (exampleOptions true) exampleBinaryFile =
      some ([Output.binary "d"], 2) :=
  ⟨⟨exampleOptions_ok true, by decide, by decide⟩,
    (searchWorker_binary_file_one_notice_delivered exampleFind "d" (exampleOptions true)
      exampleBinaryFile [97, 0] (exampleOptions_ok true) (by decide) (by decide)).2.1
      [[97, 0]] [120, 98, 32, 121, 98] [[98]] (by decide) (by decide) (by decide)⟩

/-! ## `pkg/grep/grep.go`: properties -/

theorem Grep_literal {ρ ε : Type} (compile : List Byte → Except ε ρ)
    (join : String → String → String) (fs : String → Node) (paths : List String)
    (query : List Byte) (showLines : Bool) (workers : Int) (w : Walk) :
    ∃ w1, Grep compile join fs paths query false showLines workers w
        = (GrepOutcome.blocked, w1) ∨
      Grep compile join fs paths query false showLines workers w
        = (GrepOutcome.returned [] none, w1) := by
  obtain ⟨f, hf, _⟩ := MakeStringFinder_spec query
  unfold Grep
  simp only [Bool.false_eq_true, if_false, hf]
  split
  · exact ⟨_, Or.inl rfl⟩
  · exact ⟨_, Or.inr rfl⟩

theorem Grep_regex_ok {ρ ε : Type} (compile : List Byte → Except ε ρ)
    (join : String → String → String) (fs : String → Node) (paths : List String)
    (query : List Byte) (showLines : Bool) (workers : Int) (w : Walk) (r : ρ)
    (hc : compile query = Except.ok r) :
    ∃ w1, Grep compile join fs paths query true showLines workers w
        = (GrepOutcome.blocked, w1) ∨
      Grep compile join fs paths query true showLines workers w
        = (GrepOutcome.returned [] none, w1) := by
  unfold Grep
  simp only [if_true, hc]
  split
  · exact ⟨_, Or.inl rfl⟩
  · exact ⟨_, Or.inr rfl⟩

/-- C4: `Grep` returns a non-nil error exactly when `isRegex` is set and the query does
not compile; it then returns that error at once, with the state of the walk untouched
(no `select`, no token, no job: `Search` has not been called); with `isRegex` unset it
neither panics in `MakeStringFinder` nor returns an error, whatever the query. -/
theorem Grep_error_iff_invalid_regex {ρ ε : Type} (compile : List Byte → Except ε ρ)
    (join : String → String → String) (fs : String → Node) (paths : List String)
    (query : List Byte) (isRegex showLines : Bool) (workers : Int) (w : Walk) :
    ((∃ l e, (Grep compile join fs paths query isRegex showLines workers w).1
        = GrepOutcome.returned l (some e)) ↔
      (isRegex = true ∧ ∃ e, compile query = Except.error e)) ∧
    (∀ e, isRegex = true → compile query = Except.error e →
      Grep compile join fs paths query isRegex showLines workers w
        = (GrepOutcome.returned [] (some e), w)) ∧
    (isRegex = false →
      (Grep compile join fs paths query isRegex showLines workers w).1 ≠ GrepOutcome.panicked ∧
      ∀ l e, (Grep compile join fs paths query isRegex showLines workers w).1
        ≠ GrepOutcome.returned l (some e)) := by
  have herr : ∀ e, isRegex = true → compile query = Except.error e →
      Grep compile join fs paths query isRegex showLines workers w
        = (GrepOutcome.returned [] (some e), w) := by
    intro e h1 h2
    subst h1
    unfold Grep
    simp only [if_true, h2]
  have hlit : isRegex = false →
      (Grep compile join fs paths query isRegex showLines workers w).1 ≠ GrepOutcome.panicked ∧
      ∀ l e, (Grep compile join fs paths query isRegex showLines workers w).1
        ≠ GrepOutcome.returned l (some e) := by
    intro h
    subst h
    obtain ⟨w1, h | h⟩ := Grep_literal compile join fs paths query showLines workers w <;>
      rw [h] <;> exact ⟨by simp, by simp⟩
  refine ⟨⟨?_, ?_⟩, herr, hlit⟩
  · rintro ⟨l, e, h⟩
    cases hr : isRegex with
    | false => exact absurd h ((hlit hr).2 l e)
    | true =>
      refine ⟨rfl, ?_⟩
      cases hc : compile query with
      | error e1 => exact ⟨e1, rfl⟩
      | ok r =>
        subst hr
        obtain ⟨w1, h1 | h1⟩ := Grep_regex_ok compile join fs paths query showLines workers w r hc
          <;> rw [h1] at h <;> simp at h
  · rintro ⟨hr, e, hc⟩
    exact ⟨[], e, by rw [herr e hr hc]⟩

/-- C5: on the file `c`, whose only line is `c`, the literal query `c` matches line 1 and
the walk sends the job for the file, yet `Grep` returns the empty list with a nil error. -/
theorem Grep_returns_empty_list_despite_match :
    Grep exampleCompile exampleJoin exampleFs ["c"] [99] false true 16 exampleStart
      = (GrepOutcome.returned [] none,
          ⟨0, [], [Event.acquire "c" 1, Event.job "c", Event.release "c" 0]⟩) ∧
    (MakeStringFinder [99]).bind
        (fun f => scanFile exampleFind "c" ⟨LITERAL, true, none, some f⟩ [99, 10])
      = some ([Output.numbered "c" 1 [99]], 1) := by
  constructor
  · rfl
  · rfl

/-! ## `pkg/grep/search.go`: `dirTraversal` and `Search`: properties -/

theorem skip_bounded (w : Walk) (h : TokensBounded w) : TokensBounded w.skip := h

theorem acquire_bounded (w : Walk) (path : String) (h : TokensBounded w)
    (hlt : w.held < MAX_WORKERS) : TokensBounded (w.acquire path) := by
  refine ⟨hlt, ?_⟩
  intro p l hmem
  simp only [Walk.acquire, List.mem_append, List.mem_singleton] at hmem
  rcases hmem with hmem | hmem
  · exact h.2 p l hmem
  · injection hmem with _ hl
    rw [hl]; exact hlt

theorem release_bounded (w : Walk) (path : String) (h : TokensBounded w) :
    TokensBounded (w.release path) := by
  refine ⟨le_trans (Nat.sub_le _ _) h.1, ?_⟩
  intro p l hmem
  simp only [Walk.release, List.mem_append, List.mem_singleton] at hmem
  rcases hmem with hmem | hmem
  · exact h.2 p l hmem
  · cases hmem

theorem send_bounded (w : Walk) (path : String) (h : TokensBounded w) :
    TokensBounded (w.send path) := by
  refine ⟨h.1, ?_⟩
  intro p l hmem
  simp only [Walk.send, List.mem_append, List.mem_singleton] at hmem
  rcases hmem with hmem | hmem
  · exact h.2 p l hmem
  · cases hmem

theorem released_bounded (path : String) (r : Outcome × Walk) (h : TokensBounded r.2) :
    TokensBounded (released path r).2 := by
  obtain ⟨o, w⟩ := r
  cases o with
  | ok => exact release_bounded w path h
  | failed e => exact release_bounded w path h
  | blocked => exact h

mutual
theorem dirTraversal_bounded (join : String → String → String) :
    ∀ (node : Node) (path : String) (w : Walk), TokensBounded w →
      TokensBounded (dirTraversal join path node w).2
  | Node.missing, path, w, h => by
    rw [dirTraversal]
    split_ifs with h1 h2
    · exact skip_bounded w h
    · exact released_bounded path _ (acquire_bounded w path h h2)
    · exact skip_bounded w h
  | Node.file _, path, w, h => by
    rw [dirTraversal]
    split_ifs with h1 h2
    · exact skip_bounded w h
    · exact released_bounded path _ (send_bounded _ path (acquire_bounded w path h h2))
    · exact skip_bounded w h
  | Node.dirNoOpen, path, w, h => by
    rw [dirTraversal]
    split_ifs with h1 h2
    · exact skip_bounded w h
    · exact released_bounded path _ (acquire_bounded w path h h2)
    · exact skip_bounded w h
  | Node.dirNoRead, path, w, h => by
    rw [dirTraversal]
    split_ifs with h1 h2
    · exact skip_bounded w h
    · exact released_bounded path _ (acquire_bounded w path h h2)
    · exact skip_bounded w h
  | Node.dir entries, path, w, h => by
    rw [dirTraversal]
    split_ifs with h1 h2
    · exact skip_bounded w h
    · exact released_bounded path _
        (dirEntries_bounded join entries path _ (acquire_bounded w path h h2))
    · exact skip_bounded w h
theorem dirEntries_bounded (join : String → String → String) :
    ∀ (entries : List (String × Node)) (path : String) (w : Walk), TokensBounded w →
      TokensBounded (dirEntries join path entries w).2
  | [], path, w, h => by
    rw [dirEntries]
    exact h
  | (name, child) :: rest, path, w, h => by
    rw [dirEntries]
    have hc := dirTraversal_bounded join child (join path name) w h
    split
    · next w1 heq =>
      rw [heq] at hc
      exact dirEntries_bounded join rest path w1 hc
    · next e w1 heq =>
      rw [heq] at hc
      exact hc
    · next w1 heq =>
      rw [heq] at hc
      exact hc
end

theorem searchRoots_bounded (join : String → String → String) (fs : String → Node)
    (paths : List String) (w : Walk) (h : TokensBounded w) :
    TokensBounded (searchRoots join fs paths w).2 := by
  induction paths generalizing w with
  | nil => exact h
  | cons path rest ih =>
    rw [searchRoots]
    have hc := dirTraversal_bounded join (fs path) path w h
    split
    · next w1 heq =>
      rw [heq] at hc
      exact hc
    · next o w1 _ heq =>
      rw [heq] at hc
      exact ih w1 hc

theorem dirEntries_append (join : String → String → String) (path : String)
    (pre more : List (String × Node)) (w w1 : Walk)
    (hpre : dirEntries join path pre w = (Outcome.ok, w1)) :
    dirEntries join path (pre ++ more) w = dirEntries join path more w1 := by
  induction pre generalizing w with
  | nil =>
    rw [dirEntries] at hpre
    injection hpre with _ hw
    rw [List.nil_append, hw]
  | cons head pre ih =>
    obtain ⟨name, child⟩ := head
    rw [List.cons_append, dirEntries]
    rw [dirEntries] at hpre
    split at hpre
    · next w2 heq => exact ih w2 hpre
    · next e w2 heq => cases hpre
    · next w2 heq => cases hpre

/-- C6, as stated, fails: in the directory `p`, where the entry `a` can be read, the
entry `b` after it is traversed and its job sent; in the directory `q`, which differs
only in that `a` cannot be inspected, `b` is never visited. -/
theorem dirTraversal_failing_entry_hides_later_siblings :
    Event.job "p/b" ∈
      (dirTraversal exampleJoin "p" (exampleTreeFs "p") exampleStart).2.events ∧
    Event.job "q/b" ∉
      (dirTraversal exampleJoin "q" (exampleTreeFs "q") exampleStart).2.events ∧
    dirTraversal exampleJoin "q" (exampleTreeFs "q") exampleStart =
      (Outcome.failed (TraversalError.lstat "q/a"),
        ⟨0, [], [Event.acquire "q" 1, Event.acquire "q/a" 2, Event.release "q/a" 1,
          Event.release "q" 0]⟩) := by
  refine ⟨by decide, by decide, rfl⟩

/-- C6, amended: when the call for an entry of a directory returns an error, the loop
over the directory stops there and the call for the directory returns that same error
after giving back its token: the entries before the failing one have been traversed as
usual, the entries after it (`post`) are not visited at all; `Search` drops the error and
goes on with the root paths that follow. -/
theorem dirTraversal_stops_at_first_failing_entry (join : String → String → String)
    (path name : String) (child : Node) (pre post : List (String × Node))
    (w w1 w2 : Walk) (e : TraversalError)
    (hsel : w.selects.headD false = false) (hroom : w.held < MAX_WORKERS)
    (hpre : dirEntries join path pre (w.acquire path) = (Outcome.ok, w1))
    (hchild : dirTraversal join (join path name) child w1 = (Outcome.failed e, w2)) :
    dirTraversal join path (Node.dir (pre ++ (name, child) :: post)) w
      = (Outcome.failed e, w2.release path) ∧
    ∀ (fs : String → Node) (rest : List String),
      fs path = Node.dir (pre ++ (name, child) :: post) →
      searchRoots join fs (path :: rest) w = searchRoots join fs rest (w2.release path) := by
  have hdir : dirTraversal join path (Node.dir (pre ++ (name, child) :: post)) w
      = (Outcome.failed e, w2.release path) := by
    rw [dirTraversal, hsel, if_neg (by simp), if_pos hroom]
    rw [dirEntries_append join path pre _ _ w1 hpre, dirEntries, hchild]
    rfl
  refine ⟨hdir, ?_⟩
  intro fs rest hfs
  rw [searchRoots, hfs, hdir]

/-- The directory `q`: its walk ends with the error of the entry `a`, and `b` is not visited. -/
theorem dirTraversal_stops_at_first_failing_entry_witness :
    ((exampleStart.selects.headD false = false ∧ exampleStart.held < MAX_WORKERS) ∧
      dirEntries exampleJoin "q" [] (exampleStart.acquire "q")
        = (Outcome.ok, ⟨1, [], [Event.acquire "q" 1]⟩) ∧
      dirTraversal exampleJoin (exampleJoin "q" "a") Node.missing ⟨1, [], [Event.acquire "q" 1]⟩
        = (Outcome.failed (TraversalError.lstat "q/a"),
            ⟨1, [], [Event.acquire "q" 1, Event.acquire "q/a" 2, Event.release "q/a" 1]⟩)) ∧
    dirTraversal exampleJoin "q" (Node.dir ([] ++ ("a", Node.missing) :: [("b", Node.file [98, 10])]))
        exampleStart
      = (Outcome.failed (TraversalError.lstat "q/a"),
          Walk.release
            ⟨1, [], [Event.acquire "q" 1, Event.acquire "q/a" 2, Event.release "q/a" 1]⟩ "q") :=
  ⟨⟨⟨rfl, by decide⟩, rfl, rfl⟩,
    (dirTraversal_stops_at_first_failing_entry exampleJoin "q" "a" Node.missing []
      [("b", Node.file [98, 10])] exampleStart ⟨1, [], [Event.acquire "q" 1]⟩
      ⟨1, [], [Event.acquire "q" 1, Event.acquire "q/a" 2, Event.release "q/a" 1]⟩
      (TraversalError.lstat "q/a") rfl (by decide) rfl rfl).1⟩

/-- C7, as stated, fails: with the worker budget `1` the walk of the directory `r`, which
holds one file, has two tokens in `sema` while the file is visited. -/
theorem Search_holds_more_tokens_than_workers :
    Event.acquire "r/c" 2 ∈
      (Search exampleJoin exampleTreeFs ["r"] (exampleOptions true) ⟨1⟩ exampleStart).2.events ∧
    ¬ ((2 : Int) ≤ (⟨1⟩ : SearchDebug).Workers) := by
  refine ⟨by decide, by decide⟩

/-- C7, amended: for every requested worker budget (which has no part in the walk) and
every directory tree, `Search`, started with `sema` empty, never has more than
`MAX_WORKERS = 128` tokens in `sema`: every token is put in at a level of at most 128. -/
theorem Search_tokens_never_exceed_MAX_WORKERS {ρ : Type} (join : String → String → String)
    (fs : String → Node) (paths : List String) (opts : SearchOptions ρ) (workers : Int)
    (selects : List Bool) (p : String) (l : Nat)
    (hmem : Event.acquire p l ∈ (Search join fs paths opts ⟨workers⟩ ⟨0, selects, []⟩).2.events) :
    l ≤ 128 ∧ (Search join fs paths opts ⟨workers⟩ ⟨0, selects, []⟩).2.held ≤ 128 := by
  have h := searchRoots_bounded join fs paths ⟨0, selects, []⟩
    ⟨Nat.zero_le _, fun p l hm => by cases hm⟩
  exact ⟨h.2 p l hmem, h.1⟩

/-- The directory `r` with the budget 16: the second token is within the bound. -/
theorem Search_tokens_never_exceed_MAX_WORKERS_witness :
    Event.acquire "r/c" 2 ∈
      (Search exampleJoin exampleTreeFs ["r"] (exampleOptions true) ⟨16⟩ ⟨0, [], []⟩).2.events ∧
    (2 ≤ 128 ∧
      (Search exampleJoin exampleTreeFs ["r"] (exampleOptions true) ⟨16⟩ ⟨0, [], []⟩).2.held
        ≤ 128) :=
  ⟨by decide,
    Search_tokens_never_exceed_MAX_WORKERS exampleJoin exampleTreeFs ["r"] (exampleOptions true)
      16 [] "r/c" 2 (by decide)⟩

/-! ## `pkg/process/process.go` and `pkg/config/config.go`: properties -/

/-- C9: with `PATH=/usr/bin`, `SetEnvPath("/opt/bin", true)` puts the element in front
(`/opt/bin:/usr/bin`) and `SetEnvPath("/opt/bin", false)` puts it at the end
(`/usr/bin:/opt/bin`): the reverse of what the doc comment and the claim say. -/
theorem SetEnvPath_before_prepends :
    (SetEnvPath "linux" "/opt/bin" true exampleEnviron).2 "PATH" = "/opt/bin:/usr/bin" ∧
    (SetEnvPath "linux" "/opt/bin" false exampleEnviron).2 "PATH" = "/usr/bin:/opt/bin" ∧
    (SetEnvPath "linux" "/opt/bin" true exampleEnviron).1 = none ∧
    (SetEnvPath "linux" "/opt/bin" false exampleEnviron).1 = none := by
  refine ⟨by decide, by decide, by decide, by decide⟩

/-- C10: with the value `v` under the key `name`, `AppendStringArgs(cmd, ["x"], "name")`
does not append `v`: the empty format leaves both operands over, and what is appended is
`%!(EXTRA string=name, string=v)`. -/
theorem AppendStringArgs_appends_extra_notice :
    AppendStringArgs exampleViper ["app"] ["x"] "name"
      = some ["x", "%!(EXTRA string=name, string=v)"] ∧
    AppendStringArgs exampleViper ["app"] ["x"] "name" ≠ some ["x", "v"] := by
  refine ⟨by decide, by decide⟩

/-! ## The bad character table: its entries -/

theorem makeBadCharSkip_exact (P : List Byte) :
    ∃ bad, makeBadCharSkip P = some bad ∧ ∀ b : Byte,
      ((∀ r : Nat, r + 1 < P.length → P[r]? ≠ some b) → bad b = (P.length : Int)) ∧
      (∀ r : Nat, r + 1 < P.length → P[r]? = some b →
        (∀ r1 : Nat, r < r1 → r1 + 1 < P.length → P[r1]? ≠ some b) →
        bad b = (P.length : Int) - 1 - (r : Int)) := by
  unfold makeBadCharSkip
  have h := foldlM_range_inv (badCharStep P ((P.length : Int) - 1))
    (fun k bad => ∀ b : Byte,
      ((∀ r : Nat, r < k → P[r]? ≠ some b) → bad b = (P.length : Int)) ∧
      (∀ r : Nat, r < k → P[r]? = some b →
        (∀ r1 : Nat, r < r1 → r1 < k → P[r1]? ≠ some b) →
        bad b = (P.length : Int) - 1 - (r : Int)))
    ((P.length : Int) - 1).toNat (fun _ => (P.length : Int))
    (fun b => ⟨fun _ => rfl, fun r hr _ _ => by omega⟩)
    (by
      intro k bad hk hI
      have hkP : k < P.length := by omega
      unfold badCharStep
      rw [index_natCast, List.getElem?_eq_getElem hkP]
      refine ⟨_, rfl, ?_⟩
      intro b
      by_cases hb : b = P[k]
      · subst hb
        rw [Function.update_same]
        constructor
        · intro hno
          exact absurd (List.getElem?_eq_getElem hkP) (hno k (Nat.lt_succ_self k))
        · intro r hr _ hlater
          by_cases hrk : r = k
          · rw [hrk]
          · exact absurd (List.getElem?_eq_getElem hkP) (hlater k (by omega) (Nat.lt_succ_self k))
      · rw [Function.update_noteq hb]
        constructor
        · intro hno
          exact (hI b).1 (fun r hr => hno r (by omega))
        · intro r hr hrb hlater
          have hrk : r ≠ k := by
            intro h; subst h
            rw [List.getElem?_eq_getElem hkP] at hrb
            exact hb (Option.some.inj hrb).symm
          exact (hI b).2 r (by omega) hrb (fun r1 h1 h2 => hlater r1 h1 (by omega)))
  obtain ⟨bad, hbad, hI⟩ := h
  refine ⟨bad, hbad, fun b => ⟨?_, ?_⟩⟩
  · intro hno
    exact (hI b).1 (fun r hr => hno r (by omega))
  · intro r hr hrb hlater
    exact (hI b).2 r (by omega) hrb (fun r1 h1 h2 => hlater r1 h1 (by omega))

theorem MakeStringFinder_badCharSkip (P : List Byte) (f : stringFinder)
    (hf : MakeStringFinder P = some f) : makeBadCharSkip P = some f.badCharSkip := by
  unfold MakeStringFinder at hf
  split at hf
  · next bad hbad =>
    split at hf
    · next st hst =>
      split at hf
      · next good hgood =>
        injection hf with hf
        rw [← hf]
        exact hbad
      · cases hf
    · cases hf
  · cases hf

/-- C11, as stated, fails: in the pattern `abb` the rightmost `b` is the last byte, at
distance 0 from itself, but the entry of `b` in the table is 1, the distance to the `b`
before it; and in the pattern `a` the entry of `a` is `len(P) = 1`, not 0. -/
theorem badCharSkip_last_byte_not_zero :
    (MakeStringFinder [97, 98, 98]).map (fun f => f.badCharSkip 98) = some 1 ∧
    ([97, 98, 98] : List Byte)[2]? = some 98 ∧
    (1 : Int) ≠ (([97, 98, 98] : List Byte).length : Int) - 1 - 2 ∧
    (MakeStringFinder [97]).map (fun f => f.badCharSkip 97) = some 1 ∧
    ([97] : List Byte)[0]? = some 97 := by
  refine ⟨by decide, by decide, by decide, by decide, by decide⟩

/-- C11, amended: for every pattern `P` and every byte `b`, `MakeStringFinder` sets
`badCharSkip[b]` to `len(P)-1-r`, where `r` is the largest index below `len(P)-1` with
`P[r] = b` (the last byte of the pattern is not looked at), and to `len(P)` when `b`
does not occur before the last byte. -/
theorem badCharSkip_rightmost_before_last (P : List Byte) (b : Byte) :
    ∃ f, MakeStringFinder P = some f ∧
      ((∀ r : Nat, r + 1 < P.length → P[r]? ≠ some b) →
        f.badCharSkip b = (P.length : Int)) ∧
      (∀ r : Nat, r + 1 < P.length → P[r]? = some b →
        (∀ r1 : Nat, r < r1 → r1 + 1 < P.length → P[r1]? ≠ some b) →
        f.badCharSkip b = (P.length : Int) - 1 - (r : Int)) := by
  obtain ⟨f, hf, _⟩ := MakeStringFinder_spec P
  obtain ⟨bad, hbad, hexact⟩ := makeBadCharSkip_exact P
  have h := MakeStringFinder_badCharSkip P f hf
  rw [hbad] at h
  have hb : bad = f.badCharSkip := Option.some.inj h
  rw [hb] at hexact
  exact ⟨f, hf, hexact b⟩

end GoCommons
